import Mathlib

/-!
Schedule-Sculptor: the plan solver.

A shallow embedding of `frontend/src/lib/planSolver.js` (`generatePlan` and
`checkPrerequisites`) together with the properties of the generated plan.

Conventions of the embedding.

* A property that may be missing on a JavaScript object is an `Option`
  (`none` is `undefined`); the `credits` of a catalog record, which may also
  be `null`, are a `Credits` value.
* Credits and credit-load targets are integers; the further number values the
  solver can reach (`-Infinity` from `Math.max()` of nothing, `NaN` from adding
  `undefined`) are the other constructors of `JSNum`. Fractional numbers are
  outside the embedding.
* `generatePlan` adds exactly, which is what JavaScript does as long as the
  sums stay within 2^53 in magnitude; `generatePlanJS` rounds every sum to the
  nearest double and bounds the number of arguments of a spread call, and
  `generatePlanJS_eq_generatePlan` states when the two coincide.
* A JavaScript `Set` is the list of its members in insertion order.
* `allPossibleCourses.sort(() => 0.5 - Math.random())` is a parameter
  `shuffle`, the reordering the random comparator happens to produce; the
  properties that depend on it assume that it returns a permutation.
* A thrown `TypeError` or `RangeError` is `Except.error`.
-/

namespace PlanSolver

/-! ## JavaScript values -/

/-- The number values reachable by the solver from integer credits. -/
inductive JSNum where
  | negInf : JSNum
  | num (n : Int) : JSNum
  | nan : JSNum
  deriving DecidableEq, Repr

/-- The value of the `credits` property of a catalog record: absent
(`undefined`), `null`, or a number. -/
inductive Credits where
  | absent : Credits
  | null : Credits
  | num (k : Int) : Credits
  deriving DecidableEq, Repr

/-- `ToNumber` of a credits value: `undefined` is `NaN`, `null` is 0. -/
def toNumber : Credits → JSNum
  | Credits.absent => JSNum.nan
  | Credits.null => JSNum.num 0
  | Credits.num k => JSNum.num k

/-- The integer a credits value stands for; it is used on numbers (`null` and
an absent value count 0). -/
def Credits.value : Credits → Int
  | Credits.num k => k
  | _ => 0

/-- The `+` of two numbers, computed exactly: JavaScript's result whenever the
exact sum is a double, as it is for integers up to 2^53 in magnitude
(`JSNum.addDouble` is the `+` with rounding). -/
def JSNum.add : JSNum → JSNum → JSNum
  | JSNum.nan, _ => JSNum.nan
  | _, JSNum.nan => JSNum.nan
  | JSNum.negInf, _ => JSNum.negInf
  | _, JSNum.negInf => JSNum.negInf
  | JSNum.num a, JSNum.num b => JSNum.num (a + b)

/-- The `<=` of two numbers; any comparison with `NaN` is false. -/
def JSNum.le : JSNum → JSNum → Bool
  | JSNum.nan, _ => false
  | _, JSNum.nan => false
  | JSNum.negInf, _ => true
  | JSNum.num _, JSNum.negInf => false
  | JSNum.num a, JSNum.num b => decide (a ≤ b)

/-- The `>=` of two numbers. -/
def JSNum.ge (a b : JSNum) : Bool := JSNum.le b a

/-- The `>` of two numbers; any comparison with `NaN` is false. -/
def JSNum.gt : JSNum → JSNum → Bool
  | JSNum.nan, _ => false
  | _, JSNum.nan => false
  | JSNum.negInf, _ => false
  | JSNum.num _, JSNum.negInf => true
  | JSNum.num a, JSNum.num b => decide (b < a)

/-- `Math.max(...values)`: starts from `-Infinity` and keeps the highest. -/
def mathMax (values : List Int) : JSNum :=
  values.foldl (fun highest x => if JSNum.gt (JSNum.num x) highest then JSNum.num x else highest)
    JSNum.negInf

/-- `set.add(x)` on a `Set` kept in insertion order. -/
def setAdd (s : List (Option String)) (x : Option String) : List (Option String) :=
  if s.contains x then s else s ++ [x]

/-- `new Set(values)`. -/
def newSet (values : List (Option String)) : List (Option String) :=
  values.foldl setAdd []

/-- The error a JavaScript run can end with. -/
inductive JSError where
  | typeError : JSError
  | rangeError : JSError
  deriving DecidableEq, Repr

/-! ## Data model -/

/-- A record of the course catalog. -/
structure CourseRecord where
  code : Option String
  title : String
  credits : Credits
  prereqs : Option (List String)
  deriving DecidableEq, Repr

/-- An entry of the audit that refers to a course by its code: a completed
course, an in-progress course, or an option of a requirement group. -/
structure CourseEntry where
  code : Option String
  deriving DecidableEq, Repr

/-- A group of the audit's remaining requirements. -/
structure RequirementGroup where
  category : String
  courses : Option (List CourseEntry)
  deriving DecidableEq, Repr

/-- The parsed degree audit. -/
structure AuditRecord where
  completedCourses : Option (List CourseEntry)
  inProgressCourses : Option (List CourseEntry)
  remainingRequirements : Option (List RequirementGroup)
  deriving DecidableEq, Repr

/-- The preferences object; `requirements` and `creditLoad` are destructured
from it and may be `undefined`. -/
structure Preferences where
  requirements : Option (List String)
  creditLoad : Option (List Int)
  difficulty : String
  deriving DecidableEq, Repr

/-- The `criteria` object of the result. -/
structure Criteria where
  selectedRequirements : Option (List String)
  creditLoad : JSNum
  excludedCourses : List (Option String)
  deriving DecidableEq, Repr

/-- The object returned by `generatePlan`. -/
structure Plan where
  plan : List CourseRecord
  totalCredits : JSNum
  criteria : Criteria
  deriving DecidableEq, Repr

/-! ## The solver -/

/-- `parsedAudit?.completedCourses || []`. -/
def completedCoursesOf (parsedAudit : Option AuditRecord) : List CourseEntry :=
  (parsedAudit.bind (fun a => a.completedCourses)).getD []

/-- `parsedAudit?.inProgressCourses || []`. -/
def inProgressCoursesOf (parsedAudit : Option AuditRecord) : List CourseEntry :=
  (parsedAudit.bind (fun a => a.inProgressCourses)).getD []

/-- `parsedAudit?.remainingRequirements || []`. -/
def remainingRequirementsOf (parsedAudit : Option AuditRecord) : List RequirementGroup :=
  (parsedAudit.bind (fun a => a.remainingRequirements)).getD []

/-- `checkPrerequisites(prereqCodes, completedCodes)`. -/
def checkPrerequisites (prereqCodes : Option (List String))
    (completedCodes : List (Option String)) : Bool :=
  match prereqCodes with
  | none => true
  | some codes =>
    if codes.length = 0 then true
    else codes.all (fun code => completedCodes.contains (some code))

/-- The body of the outer `forEach` of step 2: one requirement group. Calling
`requirements.includes` on `undefined` throws. -/
def addRequirement (requirements : Option (List String))
    (requiredCourseCodes : List (Option String)) (req : RequirementGroup) :
    Except JSError (List (Option String)) :=
  match requirements with
  | none => Except.error JSError.typeError
  | some rs =>
    if rs.contains req.category then
      Except.ok ((req.courses.getD []).foldl (fun s course => setAdd s course.code)
        requiredCourseCodes)
    else Except.ok requiredCourseCodes

/-- Step 2: the codes listed by the remaining requirements of the selected
categories. -/
def collectRequired (requirements : Option (List String))
    (parsedAudit : Option AuditRecord) : Except JSError (List (Option String)) :=
  (remainingRequirementsOf parsedAudit).foldlM (addRequirement requirements) []

/-- The predicate of the `filter` of step 3. -/
def isPossible (requiredCourseCodes takenCodes completedCodes : List (Option String))
    (course : CourseRecord) : Bool :=
  let fulfillsRequirement := requiredCourseCodes.contains course.code
  let hasBeenTaken := takenCodes.contains course.code
  let hasPrereqs := checkPrerequisites course.prereqs completedCodes
  fulfillsRequirement && !hasBeenTaken && hasPrereqs

/-- The two variables updated by the `for` loop of step 4. -/
structure LoopState where
  suggestedPlan : List CourseRecord
  currentCredits : JSNum
  deriving DecidableEq, Repr

/-- The `for ... of` loop of step 4 run over the courses still to visit. -/
def buildPlan (maxCredits : JSNum) : List CourseRecord → LoopState → LoopState
  | [], st => st
  | course :: rest, st =>
    let st1 : LoopState :=
      if JSNum.le (JSNum.add st.currentCredits (toNumber course.credits)) maxCredits then
        ⟨st.suggestedPlan ++ [course], JSNum.add st.currentCredits (toNumber course.credits)⟩
      else st
    if decide (st1.suggestedPlan.length ≥ 5) || JSNum.ge st1.currentCredits maxCredits then st1
    else buildPlan maxCredits rest st1

/-- `Math.max(...creditLoad)`: spreading `undefined` throws. The number of
arguments is not bounded here (`maxCreditsJS` has the bound of an engine). -/
def maxCreditsOf (creditLoad : Option (List Int)) : Except JSError JSNum :=
  match creditLoad with
  | none => Except.error JSError.typeError
  | some values => Except.ok (mathMax values)

/-- `generatePlan(preferences, parsedAudit, courseCatalog)`, with the outcome
of the random sort as the parameter `shuffle`. -/
def generatePlan (shuffle : List CourseRecord → List CourseRecord)
    (preferences : Preferences) (parsedAudit : Option AuditRecord)
    (courseCatalog : Option (List CourseRecord)) : Except JSError Plan := do
  let completedCodes := (completedCoursesOf parsedAudit).map (fun c => c.code)
  let inProgressCodes := (inProgressCoursesOf parsedAudit).map (fun c => c.code)
  let takenCodes := newSet (completedCodes ++ inProgressCodes)
  let requiredCourseCodes ← collectRequired preferences.requirements parsedAudit
  let allPossibleCourses :=
    (courseCatalog.getD []).filter (isPossible requiredCourseCodes takenCodes completedCodes)
  let shuffledCourses := shuffle allPossibleCourses
  let maxCredits ← maxCreditsOf preferences.creditLoad
  let st := buildPlan maxCredits shuffledCourses ⟨[], JSNum.num 0⟩
  return ⟨st.suggestedPlan, st.currentCredits,
    ⟨preferences.requirements, maxCredits, takenCodes⟩⟩

/-! ## The solver as an engine runs it

`generatePlan` above adds exactly and lets `Math.max(...creditLoad)` take any
number of arguments. An engine rounds every sum to the nearest double and
accepts only a bounded number of arguments in one call. `generatePlanJS` is
the same function with both: `+` is `JSNum.addDouble`, and the spread call
throws a `RangeError` when `creditLoad` has more than `spreadLimit` elements,
the limit of the engine at hand. -/

/-- The number of low bits of `a` that do not fit a significand of 53 bits
(`fuel` bounds the search; the exponent range of a double is below 1024). -/
def excessBits : Nat → Nat → Nat
  | 0, _ => 0
  | fuel + 1, a => if a < 9007199254740992 then 0 else excessBits fuel (a / 2) + 1

/-- The double nearest to an integer, ties to the even significand: integers
up to 2^53 in magnitude are doubles; a larger one keeps its 53 leading bits.
Magnitudes from 2^1024 on, which JavaScript turns into an infinity, are outside
the embedding. -/
def roundDouble (n : Int) : Int :=
  if n.natAbs ≤ 9007199254740992 then n
  else
    let e := excessBits 1024 n.natAbs
    let q := n.natAbs / 2 ^ e
    let r := n.natAbs % 2 ^ e
    let h := 2 ^ (e - 1)
    let q1 := if r < h then q else if h < r then q + 1 else if q % 2 = 0 then q else q + 1
    if 0 ≤ n then ((q1 * 2 ^ e : Nat) : Int) else -((q1 * 2 ^ e : Nat) : Int)

/-- The `+` of two integer-valued doubles as IEEE-754 computes it: the exact
sum rounded to the nearest double. -/
def JSNum.addDouble : JSNum → JSNum → JSNum
  | JSNum.nan, _ => JSNum.nan
  | _, JSNum.nan => JSNum.nan
  | JSNum.negInf, _ => JSNum.negInf
  | _, JSNum.negInf => JSNum.negInf
  | JSNum.num a, JSNum.num b => JSNum.num (roundDouble (a + b))

/-- The `for ... of` loop of step 4 with the rounding `+`. -/
def buildPlanJS (maxCredits : JSNum) : List CourseRecord → LoopState → LoopState
  | [], st => st
  | course :: rest, st =>
    let st1 : LoopState :=
      if JSNum.le (JSNum.addDouble st.currentCredits (toNumber course.credits)) maxCredits then
        ⟨st.suggestedPlan ++ [course],
          JSNum.addDouble st.currentCredits (toNumber course.credits)⟩
      else st
    if decide (st1.suggestedPlan.length ≥ 5) || JSNum.ge st1.currentCredits maxCredits then st1
    else buildPlanJS maxCredits rest st1

/-- `Math.max(...creditLoad)` on an engine that accepts at most `spreadLimit`
arguments in a call: spreading `undefined` throws a `TypeError`, spreading a
longer list throws a `RangeError`. -/
def maxCreditsJS (spreadLimit : Nat) (creditLoad : Option (List Int)) : Except JSError JSNum :=
  match creditLoad with
  | none => Except.error JSError.typeError
  | some values =>
    if values.length ≤ spreadLimit then Except.ok (mathMax values)
    else Except.error JSError.rangeError

/-- `generatePlan(preferences, parsedAudit, courseCatalog)` as an engine with
argument limit `spreadLimit` runs it, with the outcome of the random sort as
the parameter `shuffle`. -/
def generatePlanJS (spreadLimit : Nat) (shuffle : List CourseRecord → List CourseRecord)
    (preferences : Preferences) (parsedAudit : Option AuditRecord)
    (courseCatalog : Option (List CourseRecord)) : Except JSError Plan := do
  let completedCodes := (completedCoursesOf parsedAudit).map (fun c => c.code)
  let inProgressCodes := (inProgressCoursesOf parsedAudit).map (fun c => c.code)
  let takenCodes := newSet (completedCodes ++ inProgressCodes)
  let requiredCourseCodes ← collectRequired preferences.requirements parsedAudit
  let allPossibleCourses :=
    (courseCatalog.getD []).filter (isPossible requiredCourseCodes takenCodes completedCodes)
  let shuffledCourses := shuffle allPossibleCourses
  let maxCredits ← maxCreditsJS spreadLimit preferences.creditLoad
  let st := buildPlanJS maxCredits shuffledCourses ⟨[], JSNum.num 0⟩
  return ⟨st.suggestedPlan, st.currentCredits,
    ⟨preferences.requirements, maxCredits, takenCodes⟩⟩

/-! ## Notions used by the statements -/

/-- A code is listed by a group of a selected category. -/
def ListedBy (rs : List String) (groups : List RequirementGroup) (x : Option String) : Prop :=
  ∃ g ∈ groups, g.category ∈ rs ∧ ∃ e ∈ g.courses.getD [], e.code = x

/-- The sum of the credits of a list of courses, added left to right from 0. -/
def sumCredits (courses : List CourseRecord) : JSNum :=
  courses.foldl (fun acc c => JSNum.add acc (toNumber c.credits)) (JSNum.num 0)

/-- A catalog course is a candidate when its code is listed by a group of a
selected category, no completed or in-progress course carries its code, and
each of its prerequisites is the code of a completed course (an absent list of
prerequisites has none). -/
def isCandidate (rs : List String) (parsedAudit : Option AuditRecord)
    (c : CourseRecord) : Bool :=
  decide
    ((∃ g ∈ remainingRequirementsOf parsedAudit, g.category ∈ rs ∧
        ∃ e ∈ g.courses.getD [], e.code = c.code) ∧
      (∀ e ∈ completedCoursesOf parsedAudit ++ inProgressCoursesOf parsedAudit,
        e.code ≠ c.code) ∧
      (∀ p ∈ c.prereqs.getD [], ∃ e ∈ completedCoursesOf parsedAudit, e.code = some p))

/-- The candidate pool, in catalog order: the candidates among the records of
the catalog. -/
def candidatePool (rs : List String) (parsedAudit : Option AuditRecord)
    (courseCatalog : Option (List CourseRecord)) : List CourseRecord :=
  (courseCatalog.getD []).filter (isCandidate rs parsedAudit)

/-- The integer sum of the credits of a list of courses; it is used on lists
whose credits are all numbers. -/
def creditTotal (courses : List CourseRecord) : Int :=
  (courses.map (fun c => c.credits.value)).sum

/-- The courses of `pool` at the positions flagged `true`, in pool order. -/
def pick : List CourseRecord → List Bool → List CourseRecord
  | c :: cs, true :: bs => c :: pick cs bs
  | _ :: cs, false :: bs => pick cs bs
  | _, _ => []

/-- The courses flagged among the first `k` positions of `pool`: the plan of
the pass after those positions. -/
def planAfter (pool : List CourseRecord) (flags : List Bool) (k : Nat) : List CourseRecord :=
  pick (pool.take k) (flags.take k)

/-! ## Sample data: the CS101 / CS201 scenario -/

/-- Catalog record of CS101. -/
def cs101 : CourseRecord := ⟨some "CS101", "Intro", Credits.num 3, some []⟩

/-- Catalog record of CS201, which requires CS101. -/
def cs201 : CourseRecord := ⟨some "CS201", "Data Structures", Credits.num 3, some ["CS101"]⟩

/-- The audit of the scenario: CS101 completed, CS201 open under Major Core. -/
def sampleAudit : AuditRecord :=
  ⟨some [⟨some "CS101"⟩], some [], some [⟨"Major Core", some [⟨some "CS201"⟩]⟩]⟩

/-- The preferences of the scenario. -/
def samplePrefs : Preferences := ⟨some ["Major Core"], some [15], "Moderate"⟩

/-- Catalog record of CS301, which requires CS201. -/
def cs301 : CourseRecord := ⟨some "CS301", "Algorithms", Credits.num 4, some ["CS201"]⟩

/-- Catalog record of MATH210, whose prerequisite list is absent. -/
def math210 : CourseRecord := ⟨some "MATH210", "Calculus III", Credits.num 4, none⟩

/-- A catalog of four courses with distinct codes. -/
def sampleCatalog : List CourseRecord := [cs101, cs201, cs301, math210]

/-- An audit with CS101 completed and CS201 in progress, both still listed
as options of the Major Core group. -/
def busyAudit : AuditRecord :=
  ⟨some [⟨some "CS101"⟩], some [⟨some "CS201"⟩],
    some [⟨"Major Core", some [⟨some "CS101"⟩, ⟨some "CS201"⟩, ⟨some "CS301"⟩]⟩,
      ⟨"Math", some [⟨some "MATH210"⟩]⟩]⟩

/-- A second catalog record carrying the code CS201. -/
def cs201Again : CourseRecord :=
  ⟨some "CS201", "Data Structures (evening)", Credits.num 3, some ["CS101"]⟩

/-- A catalog record without a code. -/
def noCode : CourseRecord := ⟨none, "Untitled", Credits.num 3, none⟩

/-- A catalog record with negative credits. -/
def negCredits : CourseRecord := ⟨some "CS300", "Adjustment", Credits.num (-3), none⟩

/-- Catalog record of CS310, which requires CS201. -/
def cs310 : CourseRecord := ⟨some "CS310", "Databases", Credits.num 3, some ["CS201"]⟩

/-- Catalog record of CS320, whose prerequisite list is absent. -/
def cs320 : CourseRecord := ⟨some "CS320", "Networks", Credits.num 3, none⟩

/-- An audit with CS101 and CS201 completed and three open Major Core options. -/
def electiveAudit : AuditRecord :=
  ⟨some [⟨some "CS101"⟩, ⟨some "CS201"⟩], none,
    some [⟨"Major Core", some [⟨some "CS301"⟩, ⟨some "CS310"⟩, ⟨some "CS320"⟩]⟩]⟩

/-- The catalog of the three Major Core options: 4, 3 and 3 credits. -/
def electiveCatalog : List CourseRecord := [cs301, cs310, cs320]

/-- An audit whose Major Core group has an entry without a code. -/
def looseAudit : AuditRecord :=
  ⟨none, none,
    some [⟨"Major Core",
      some [⟨none⟩, ⟨some "CS300"⟩, ⟨some "CS305"⟩, ⟨some "CS306"⟩]⟩]⟩

/-- A catalog record whose credits are `null`. -/
def nullCredits : CourseRecord := ⟨some "CS305", "Seminar", Credits.null, none⟩

/-- A catalog record without a credits property. -/
def noCredits : CourseRecord := ⟨some "CS306", "Colloquium", Credits.absent, none⟩

/-- A catalog record of 2^53 credits. -/
def bigCourse : CourseRecord := ⟨some "BIG100", "Residency", Credits.num 9007199254740992, none⟩

/-- A catalog record of 2^53 + 2 credits. -/
def bigCourse2 : CourseRecord :=
  ⟨some "BIG200", "Practicum", Credits.num 9007199254740994, none⟩

/-- A catalog record of one credit. -/
def oneCredit : CourseRecord := ⟨some "PE101", "Fitness", Credits.num 1, none⟩

/-- Another catalog record of one credit. -/
def oneMore : CourseRecord := ⟨some "PE102", "Yoga", Credits.num 1, none⟩

/-- An audit with nothing taken, whose Major Core group lists the four
records above. -/
def bigAudit : AuditRecord :=
  ⟨none, none,
    some [⟨"Major Core",
      some [⟨some "BIG100"⟩, ⟨some "BIG200"⟩, ⟨some "PE101"⟩, ⟨some "PE102"⟩]⟩]⟩

/-! ## Sets and numbers -/

theorem mem_setAdd (s : List (Option String)) (x y : Option String) :
    y ∈ setAdd s x ↔ y ∈ s ∨ y = x := by
  unfold setAdd
  by_cases h : s.contains x = true
  · rw [if_pos h]
    constructor
    · intro hy; exact Or.inl hy
    · rintro (hy | rfl)
      · exact hy
      · simpa using h
  · rw [if_neg h]; simp

theorem mem_foldl_setAdd {α : Type} (f : α → Option String) (l : List α)
    (s : List (Option String)) (y : Option String) :
    y ∈ l.foldl (fun acc a => setAdd acc (f a)) s ↔ y ∈ s ∨ ∃ a ∈ l, f a = y := by
  induction l generalizing s with
  | nil => simp
  | cons a l ih =>
    rw [List.foldl_cons, ih, mem_setAdd]
    constructor
    · rintro ((h | h) | ⟨b, hb, h⟩)
      · exact Or.inl h
      · exact Or.inr ⟨a, List.mem_cons_self _ _, h.symm⟩
      · exact Or.inr ⟨b, List.mem_cons_of_mem _ hb, h⟩
    · rintro (h | ⟨b, hb, h⟩)
      · exact Or.inl (Or.inl h)
      · rcases List.mem_cons.1 hb with rfl | hb
        · exact Or.inl (Or.inr h.symm)
        · exact Or.inr ⟨b, hb, h⟩

theorem mem_newSet (values : List (Option String)) (y : Option String) :
    y ∈ newSet values ↔ y ∈ values := by
  have h := mem_foldl_setAdd (fun a => a) values [] y
  unfold newSet
  constructor
  · intro hy
    rcases h.1 hy with h1 | ⟨a, ha, rfl⟩
    · simp at h1
    · exact ha
  · intro hy
    exact h.2 (Or.inr ⟨y, hy, rfl⟩)

theorem nodup_setAdd (s : List (Option String)) (x : Option String) (h : s.Nodup) :
    (setAdd s x).Nodup := by
  unfold setAdd
  by_cases hx : s.contains x = true
  · rw [if_pos hx]; exact h
  · rw [if_neg hx]
    have hnot : x ∉ s := by simpa using hx
    rw [List.nodup_append]
    refine ⟨h, List.nodup_singleton x, ?_⟩
    intro a ha hb
    rw [List.mem_singleton.1 hb] at ha
    exact hnot ha

/-- A `Set` built from a list has no repeated member. -/
theorem nodup_newSet (values : List (Option String)) : (newSet values).Nodup := by
  unfold newSet
  have hgen : ∀ (l s : List (Option String)), s.Nodup → (l.foldl setAdd s).Nodup := by
    intro l
    induction l with
    | nil => intro s hs; exact hs
    | cons a l ih => intro s hs; exact ih (setAdd s a) (nodup_setAdd s a hs)
  exact hgen values [] List.nodup_nil

theorem mathMax_foldl_num (values : List Int) (a : Int) :
    values.foldl (fun highest x => if JSNum.gt (JSNum.num x) highest then JSNum.num x else highest)
      (JSNum.num a) = JSNum.num (values.foldl max a) := by
  induction values generalizing a with
  | nil => rfl
  | cons x l ih =>
    rw [List.foldl_cons, List.foldl_cons]
    by_cases h : a < x
    · have : JSNum.gt (JSNum.num x) (JSNum.num a) = true := by simp [JSNum.gt, h]
      rw [if_pos this, ih, max_eq_right (le_of_lt h)]
    · have : ¬ JSNum.gt (JSNum.num x) (JSNum.num a) = true := by simp [JSNum.gt, h]
      rw [if_neg this, ih, max_eq_left (not_lt.1 h)]

theorem foldl_max_spec (values : List Int) (a : Int) :
    a ≤ values.foldl max a ∧ (∀ x ∈ values, x ≤ values.foldl max a) ∧
      (values.foldl max a = a ∨ values.foldl max a ∈ values) := by
  induction values generalizing a with
  | nil => simp
  | cons x l ih =>
    obtain ⟨h1, h2, h3⟩ := ih (max a x)
    rw [List.foldl_cons]
    refine ⟨le_trans (le_max_left a x) h1, ?_, ?_⟩
    · intro y hy
      rcases List.mem_cons.1 hy with rfl | hy
      · exact le_trans (le_max_right a y) h1
      · exact h2 y hy
    · rcases h3 with h3 | h3
      · rw [h3]
        rcases max_choice a x with h | h
        · exact Or.inl h
        · exact Or.inr (by rw [h]; exact List.mem_cons_self _ _)
      · exact Or.inr (List.mem_cons_of_mem _ h3)

/-- `Math.max` of no value is `-Infinity`. -/
theorem mathMax_nil : mathMax [] = JSNum.negInf := rfl

/-- `Math.max` of a non-empty list is its greatest member. -/
theorem mathMax_eq (values : List Int) (m : Int) (hm : m ∈ values)
    (hmax : ∀ x ∈ values, x ≤ m) : mathMax values = JSNum.num m := by
  cases values with
  | nil => simp at hm
  | cons x l =>
    have hstep : mathMax (x :: l) = JSNum.num (l.foldl max x) := by
      unfold mathMax
      rw [List.foldl_cons]
      have : JSNum.gt (JSNum.num x) JSNum.negInf = true := rfl
      rw [if_pos this, mathMax_foldl_num]
    rw [hstep]
    obtain ⟨h1, h2, h3⟩ := foldl_max_spec l x
    have hle : l.foldl max x ≤ m := by
      rcases h3 with h3 | h3
      · rw [h3]; exact hmax x (List.mem_cons_self _ _)
      · exact hmax _ (List.mem_cons_of_mem _ h3)
    have hge : m ≤ l.foldl max x := by
      rcases List.mem_cons.1 hm with rfl | hm
      · exact h1
      · exact h2 m hm
    rw [le_antisymm hle hge]

/-- `Math.max` of a non-empty list is a number, the greatest member. -/
theorem mathMax_cases (values : List Int) :
    (values = [] ∧ mathMax values = JSNum.negInf) ∨
      ∃ m, m ∈ values ∧ (∀ x ∈ values, x ≤ m) ∧ mathMax values = JSNum.num m := by
  cases values with
  | nil => exact Or.inl ⟨rfl, rfl⟩
  | cons x l =>
    right
    obtain ⟨h1, h2, h3⟩ := foldl_max_spec l x
    have hmem : l.foldl max x ∈ x :: l := by
      rcases h3 with h3 | h3
      · rw [h3]; exact List.mem_cons_self _ _
      · exact List.mem_cons_of_mem _ h3
    have hub : ∀ y ∈ x :: l, y ≤ l.foldl max x := by
      intro y hy
      rcases List.mem_cons.1 hy with rfl | hy
      · exact h1
      · exact h2 y hy
    exact ⟨_, hmem, hub, mathMax_eq _ _ hmem hub⟩

/-! ## Step 2: the required codes -/

theorem foldlM_addRequirement (rs : List String) (groups : List RequirementGroup)
    (acc : List (Option String)) :
    ∃ s, groups.foldlM (addRequirement (some rs)) acc = Except.ok s ∧
      ∀ x, x ∈ s ↔ x ∈ acc ∨ ListedBy rs groups x := by
  induction groups generalizing acc with
  | nil =>
    refine ⟨acc, rfl, ?_⟩
    intro x
    simp [ListedBy]
  | cons g gs ih =>
    by_cases hg : rs.contains g.category = true
    · obtain ⟨s, hs, hmem⟩ :=
        ih ((g.courses.getD []).foldl (fun s course => setAdd s course.code) acc)
      refine ⟨s, ?_, ?_⟩
      · rw [List.foldlM_cons]
        simp only [addRequirement, if_pos hg]
        exact hs
      · intro x
        rw [hmem, mem_foldl_setAdd]
        have hin : g.category ∈ rs := by simpa using hg
        constructor
        · rintro ((h | ⟨e, he, hx⟩) | ⟨g', hg', hc, hl⟩)
          · exact Or.inl h
          · exact Or.inr ⟨g, List.mem_cons_self _ _, hin, e, he, hx⟩
          · exact Or.inr ⟨g', List.mem_cons_of_mem _ hg', hc, hl⟩
        · rintro (h | ⟨g', hg', hc, e, he, hx⟩)
          · exact Or.inl (Or.inl h)
          · rcases List.mem_cons.1 hg' with rfl | hg'
            · exact Or.inl (Or.inr ⟨e, he, hx⟩)
            · exact Or.inr ⟨g', hg', hc, e, he, hx⟩
    · obtain ⟨s, hs, hmem⟩ := ih acc
      refine ⟨s, ?_, ?_⟩
      · rw [List.foldlM_cons]
        simp only [addRequirement, if_neg hg]
        exact hs
      · intro x
        rw [hmem]
        have hnin : g.category ∉ rs := by simpa using hg
        constructor
        · rintro (h | ⟨g', hg', hc, hl⟩)
          · exact Or.inl h
          · exact Or.inr ⟨g', List.mem_cons_of_mem _ hg', hc, hl⟩
        · rintro (h | ⟨g', hg', hc, hl⟩)
          · exact Or.inl h
          · rcases List.mem_cons.1 hg' with rfl | hg'
            · exact absurd hc hnin
            · exact Or.inr ⟨g', hg', hc, hl⟩

/-- With a list of requirements, step 2 does not throw and collects exactly
the codes listed by the groups of the selected categories. -/
theorem collectRequired_some (rs : List String) (parsedAudit : Option AuditRecord) :
    ∃ s, collectRequired (some rs) parsedAudit = Except.ok s ∧
      ∀ x, x ∈ s ↔ ListedBy rs (remainingRequirementsOf parsedAudit) x := by
  obtain ⟨s, hs, hmem⟩ := foldlM_addRequirement rs (remainingRequirementsOf parsedAudit) []
  refine ⟨s, hs, ?_⟩
  intro x
  rw [hmem]
  simp

/-- Step 2 depends on the requirements only through which group categories
they contain. -/
theorem collectRequired_congr (rs rs2 : List String) (parsedAudit : Option AuditRecord)
    (h : ∀ g ∈ remainingRequirementsOf parsedAudit, (g.category ∈ rs2 ↔ g.category ∈ rs)) :
    collectRequired (some rs2) parsedAudit = collectRequired (some rs) parsedAudit := by
  unfold collectRequired
  generalize remainingRequirementsOf parsedAudit = groups at h
  generalize ([] : List (Option String)) = acc
  induction groups generalizing acc with
  | nil => rfl
  | cons g gs ih =>
    have hg : rs2.contains g.category = rs.contains g.category := by
      have := h g (List.mem_cons_self _ _)
      by_cases hin : g.category ∈ rs
      · simp [hin, this.2 hin]
      · have hin2 : g.category ∉ rs2 := fun h2 => hin (this.1 h2)
        simp [hin, hin2]
    have hstep : addRequirement (some rs2) acc g = addRequirement (some rs) acc g := by
      simp only [addRequirement, hg]
    rw [List.foldlM_cons, List.foldlM_cons, hstep]
    cases addRequirement (some rs) acc g with
    | error e => rfl
    | ok s => exact ih (fun g' hg' => h g' (List.mem_cons_of_mem _ hg')) s

/-! ## Step 4: the loop -/

theorem sumCredits_append (l : List CourseRecord) (c : CourseRecord) :
    sumCredits (l ++ [c]) = JSNum.add (sumCredits l) (toNumber c.credits) := by
  unfold sumCredits
  rw [List.foldl_append]
  rfl

theorem le_add_nan (a m : JSNum) : JSNum.le (JSNum.add a JSNum.nan) m = false := by
  cases a <;> cases m <;> rfl

/-- The loop appends to the plan a subsequence of the courses it visits. -/
theorem buildPlan_sublist (m : JSNum) (pool : List CourseRecord) (st : LoopState) :
    ∃ sel, List.Sublist sel pool ∧
      (buildPlan m pool st).suggestedPlan = st.suggestedPlan ++ sel := by
  induction pool generalizing st with
  | nil => exact ⟨[], List.Sublist.slnil, by simp [buildPlan]⟩
  | cons c rest ih =>
    simp only [buildPlan]
    by_cases hfit : JSNum.le (JSNum.add st.currentCredits (toNumber c.credits)) m = true
    · simp only [if_pos hfit]
      split
      · exact ⟨[c], by simp, rfl⟩
      · obtain ⟨sel, hsub, heq⟩ := ih
          ⟨st.suggestedPlan ++ [c], JSNum.add st.currentCredits (toNumber c.credits)⟩
        refine ⟨c :: sel, hsub.cons₂ c, ?_⟩
        rw [heq]
        simp
    · simp only [if_neg hfit]
      split
      · exact ⟨[], by simp, by simp⟩
      · obtain ⟨sel, hsub, heq⟩ := ih st
        exact ⟨sel, hsub.cons c, heq⟩

/-- The loop keeps the plan within five courses. -/
theorem buildPlan_length (m : JSNum) (pool : List CourseRecord) (st : LoopState)
    (h : st.suggestedPlan.length < 5) : (buildPlan m pool st).suggestedPlan.length ≤ 5 := by
  induction pool generalizing st with
  | nil => simp only [buildPlan]; omega
  | cons c rest ih =>
    simp only [buildPlan]
    by_cases hfit : JSNum.le (JSNum.add st.currentCredits (toNumber c.credits)) m = true
    · simp only [if_pos hfit]
      split
      · simp only [List.length_append, List.length_singleton]; omega
      · rename_i hstop
        apply ih
        simp only [Bool.or_eq_true, decide_eq_true_eq, not_or] at hstop
        exact Nat.lt_of_not_le hstop.1
    · simp only [if_neg hfit]
      split
      · omega
      · exact ih st h

/-- The loop keeps the running credits equal to the sum over the plan. -/
theorem buildPlan_sum (m : JSNum) (pool : List CourseRecord) (st : LoopState)
    (h : st.currentCredits = sumCredits st.suggestedPlan) :
    (buildPlan m pool st).currentCredits = sumCredits (buildPlan m pool st).suggestedPlan := by
  induction pool generalizing st with
  | nil => simpa only [buildPlan] using h
  | cons c rest ih =>
    simp only [buildPlan]
    by_cases hfit : JSNum.le (JSNum.add st.currentCredits (toNumber c.credits)) m = true
    · simp only [if_pos hfit]
      have hnew : JSNum.add st.currentCredits (toNumber c.credits) =
          sumCredits (st.suggestedPlan ++ [c]) := by
        rw [sumCredits_append, h]
      split
      · exact hnew
      · exact ih _ hnew
    · simp only [if_neg hfit]
      split
      · exact h
      · exact ih st h

/-- The loop keeps the running credits within the ceiling. -/
theorem buildPlan_le (m : JSNum) (pool : List CourseRecord) (st : LoopState)
    (h : JSNum.le st.currentCredits m = true) :
    JSNum.le (buildPlan m pool st).currentCredits m = true := by
  induction pool generalizing st with
  | nil => simpa only [buildPlan] using h
  | cons c rest ih =>
    simp only [buildPlan]
    by_cases hfit : JSNum.le (JSNum.add st.currentCredits (toNumber c.credits)) m = true
    · simp only [if_pos hfit]
      split
      · exact hfit
      · exact ih _ hfit
    · simp only [if_neg hfit]
      split
      · exact h
      · exact ih st h

/-- The loop only adds courses whose credits are present. -/
theorem buildPlan_credits (m : JSNum) (pool : List CourseRecord) (st : LoopState)
    (c : CourseRecord) (hc : c ∈ (buildPlan m pool st).suggestedPlan) :
    c ∈ st.suggestedPlan ∨ c.credits ≠ Credits.absent := by
  induction pool generalizing st with
  | nil => exact Or.inl (by simpa only [buildPlan] using hc)
  | cons d rest ih =>
    simp only [buildPlan] at hc
    by_cases hfit : JSNum.le (JSNum.add st.currentCredits (toNumber d.credits)) m = true
    · have hd : d.credits ≠ Credits.absent := by
        intro hnone
        rw [hnone] at hfit
        have := le_add_nan st.currentCredits m
        simp only [toNumber] at hfit
        rw [this] at hfit
        exact Bool.false_ne_true hfit
      have hstep : ∀ x, x ∈ st.suggestedPlan ++ [d] → x ∈ st.suggestedPlan ∨ x.credits ≠ Credits.absent := by
        intro x hx
        rcases List.mem_append.1 hx with hx | hx
        · exact Or.inl hx
        · rw [List.mem_singleton.1 hx]; exact Or.inr hd
      simp only [if_pos hfit] at hc
      split at hc
      · exact hstep c hc
      · rcases ih _ hc with h | h
        · exact hstep c h
        · exact Or.inr h
    · simp only [if_neg hfit] at hc
      split at hc
      · exact Or.inl hc
      · exact ih st hc

/-- From a number, the loop's running credits stay a number. -/
theorem buildPlan_isNum (m : JSNum) (pool : List CourseRecord) (st : LoopState)
    (h : ∃ a, st.currentCredits = JSNum.num a) :
    ∃ t, (buildPlan m pool st).currentCredits = JSNum.num t := by
  induction pool generalizing st with
  | nil => simpa only [buildPlan] using h
  | cons c rest ih =>
    simp only [buildPlan]
    by_cases hfit : JSNum.le (JSNum.add st.currentCredits (toNumber c.credits)) m = true
    · have hnew : ∃ a, JSNum.add st.currentCredits (toNumber c.credits) = JSNum.num a := by
        obtain ⟨a, ha⟩ := h
        rw [ha] at hfit ⊢
        cases hcr : c.credits with
        | absent =>
          rw [hcr] at hfit
          have := le_add_nan (JSNum.num a) m
          simp only [toNumber] at hfit
          rw [this] at hfit
          exact absurd hfit Bool.false_ne_true
        | null => exact ⟨a + 0, rfl⟩
        | num b => exact ⟨a + b, rfl⟩
      simp only [if_pos hfit]
      split
      · exact hnew
      · exact ih _ hnew
    · simp only [if_neg hfit]
      split
      · exact h
      · exact ih st h

/-- Against the ceiling `-Infinity` the loop selects nothing. -/
theorem buildPlan_negInf (pool : List CourseRecord) :
    buildPlan JSNum.negInf pool ⟨[], JSNum.num 0⟩ = ⟨[], JSNum.num 0⟩ := by
  cases pool with
  | nil => rfl
  | cons c rest =>
    have hfit : ¬ JSNum.le (JSNum.add (JSNum.num 0) (toNumber c.credits)) JSNum.negInf = true := by
      cases c.credits <;> simp [toNumber, JSNum.add, JSNum.le]
    simp only [buildPlan, if_neg hfit]
    rfl

theorem sumCredits_foldl (l : List CourseRecord) (a : Int)
    (h : ∀ c ∈ l, ∃ k : Int, c.credits = Credits.num k) :
    ∃ creds : List Int, l.map (fun c => c.credits) = creds.map Credits.num ∧
      l.foldl (fun acc c => JSNum.add acc (toNumber c.credits)) (JSNum.num a) =
        JSNum.num (a + creds.sum) := by
  induction l generalizing a with
  | nil => exact ⟨[], rfl, by simp⟩
  | cons c rest ih =>
    obtain ⟨b, hcr⟩ := h c (List.mem_cons_self _ _)
    · obtain ⟨creds, hmap, hsum⟩ := ih (a + b) (fun x hx => h x (List.mem_cons_of_mem _ hx))
      refine ⟨b :: creds, ?_, ?_⟩
      · simp [hcr, hmap]
      · have hstep : JSNum.add (JSNum.num a) (toNumber c.credits) = JSNum.num (a + b) := by
          rw [hcr]; rfl
        rw [List.foldl_cons, hstep, hsum, List.sum_cons, add_assoc]

/-! ## The whole function -/

theorem isPossible_iff (req taken completed : List (Option String)) (c : CourseRecord) :
    isPossible req taken completed c = true ↔
      c.code ∈ req ∧ c.code ∉ taken ∧ checkPrerequisites c.prereqs completed = true := by
  simp [isPossible, and_assoc]

theorem checkPrerequisites_iff (prereqs : Option (List String))
    (completed : List (Option String)) :
    checkPrerequisites prereqs completed = true ↔
      ∀ ps, prereqs = some ps → ∀ p ∈ ps, some p ∈ completed := by
  cases prereqs with
  | none => simp [checkPrerequisites]
  | some ps =>
    cases ps with
    | nil => simp [checkPrerequisites]
    | cons p ps => simp [checkPrerequisites]

/-- The value returned once step 2 has produced the set `req`. -/
theorem generatePlan_of_collect (shuffle : List CourseRecord → List CourseRecord)
    (rs : List String) (cl : List Int) (d : String) (parsedAudit : Option AuditRecord)
    (courseCatalog : Option (List CourseRecord)) (req : List (Option String))
    (hreq : collectRequired (some rs) parsedAudit = Except.ok req) :
    generatePlan shuffle ⟨some rs, some cl, d⟩ parsedAudit courseCatalog =
      Except.ok
        ⟨(buildPlan (mathMax cl)
            (shuffle ((courseCatalog.getD []).filter
              (isPossible req
                (newSet ((completedCoursesOf parsedAudit).map (fun c => c.code) ++
                  (inProgressCoursesOf parsedAudit).map (fun c => c.code)))
                ((completedCoursesOf parsedAudit).map (fun c => c.code)))))
            ⟨[], JSNum.num 0⟩).suggestedPlan,
         (buildPlan (mathMax cl)
            (shuffle ((courseCatalog.getD []).filter
              (isPossible req
                (newSet ((completedCoursesOf parsedAudit).map (fun c => c.code) ++
                  (inProgressCoursesOf parsedAudit).map (fun c => c.code)))
                ((completedCoursesOf parsedAudit).map (fun c => c.code)))))
            ⟨[], JSNum.num 0⟩).currentCredits,
         ⟨some rs, mathMax cl,
           newSet ((completedCoursesOf parsedAudit).map (fun c => c.code) ++
             (inProgressCoursesOf parsedAudit).map (fun c => c.code))⟩⟩ := by
  simp only [generatePlan, hreq, maxCreditsOf]
  rfl

/-- The value returned for preferences that carry both lists: the function does
not throw, and the result is assembled from the steps as below. -/
theorem generatePlan_some (shuffle : List CourseRecord → List CourseRecord)
    (rs : List String) (cl : List Int) (d : String) (parsedAudit : Option AuditRecord)
    (courseCatalog : Option (List CourseRecord)) :
    ∃ req : List (Option String),
      (∀ x, x ∈ req ↔ ListedBy rs (remainingRequirementsOf parsedAudit) x) ∧
      generatePlan shuffle ⟨some rs, some cl, d⟩ parsedAudit courseCatalog =
        Except.ok
          ⟨(buildPlan (mathMax cl)
              (shuffle ((courseCatalog.getD []).filter
                (isPossible req
                  (newSet ((completedCoursesOf parsedAudit).map (fun c => c.code) ++
                    (inProgressCoursesOf parsedAudit).map (fun c => c.code)))
                  ((completedCoursesOf parsedAudit).map (fun c => c.code)))))
              ⟨[], JSNum.num 0⟩).suggestedPlan,
           (buildPlan (mathMax cl)
              (shuffle ((courseCatalog.getD []).filter
                (isPossible req
                  (newSet ((completedCoursesOf parsedAudit).map (fun c => c.code) ++
                    (inProgressCoursesOf parsedAudit).map (fun c => c.code)))
                  ((completedCoursesOf parsedAudit).map (fun c => c.code)))))
              ⟨[], JSNum.num 0⟩).currentCredits,
           ⟨some rs, mathMax cl,
             newSet ((completedCoursesOf parsedAudit).map (fun c => c.code) ++
               (inProgressCoursesOf parsedAudit).map (fun c => c.code))⟩⟩ := by
  obtain ⟨req, hreq, hmem⟩ := collectRequired_some rs parsedAudit
  exact ⟨req, hmem, generatePlan_of_collect shuffle rs cl d parsedAudit courseCatalog req hreq⟩

/-- A course selected by the loop from a permutation of the filtered catalog
is a catalog record that passed the filter. -/
theorem mem_plan_possible (shuffle : List CourseRecord → List CourseRecord)
    (hperm : ∀ l, List.Perm (shuffle l) l) (m : JSNum) (catalog : List CourseRecord)
    (f : CourseRecord → Bool) (c : CourseRecord)
    (hc : c ∈ (buildPlan m (shuffle (catalog.filter f)) ⟨[], JSNum.num 0⟩).suggestedPlan) :
    c ∈ catalog ∧ f c = true := by
  obtain ⟨sel, hsub, heq⟩ := buildPlan_sublist m (shuffle (catalog.filter f)) ⟨[], JSNum.num 0⟩
  rw [heq] at hc
  simp only [List.nil_append] at hc
  have h1 : c ∈ shuffle (catalog.filter f) := hsub.subset hc
  have h2 : c ∈ catalog.filter f := (hperm _).mem_iff.1 h1
  exact List.mem_filter.1 h2

/-- The filter of step 3 keeps exactly the candidates. -/
theorem isPossible_eq_isCandidate (rs : List String) (parsedAudit : Option AuditRecord)
    (req : List (Option String))
    (hmem : ∀ x, x ∈ req ↔ ListedBy rs (remainingRequirementsOf parsedAudit) x)
    (c : CourseRecord) :
    isPossible req
        (newSet ((completedCoursesOf parsedAudit).map (fun c => c.code) ++
          (inProgressCoursesOf parsedAudit).map (fun c => c.code)))
        ((completedCoursesOf parsedAudit).map (fun c => c.code)) c =
      isCandidate rs parsedAudit c := by
  rw [Bool.eq_iff_iff, isPossible_iff, hmem, mem_newSet, checkPrerequisites_iff]
  unfold isCandidate ListedBy
  rw [decide_eq_true_iff]
  refine and_congr Iff.rfl (and_congr ?_ ?_)
  · constructor
    · intro h e he heq
      apply h
      rcases List.mem_append.1 he with he | he
      · exact List.mem_append_left _ (List.mem_map.2 ⟨e, he, heq⟩)
      · exact List.mem_append_right _ (List.mem_map.2 ⟨e, he, heq⟩)
    · intro h hin
      rcases List.mem_append.1 hin with hin | hin
      · obtain ⟨e, he, heq⟩ := List.mem_map.1 hin
        exact h e (List.mem_append_left _ he) heq
      · obtain ⟨e, he, heq⟩ := List.mem_map.1 hin
        exact h e (List.mem_append_right _ he) heq
  · constructor
    · intro h p hp
      cases hpre : c.prereqs with
      | none => rw [hpre] at hp; simp at hp
      | some ps =>
        rw [hpre] at hp
        obtain ⟨e, he, heq⟩ := List.mem_map.1 (h ps hpre p hp)
        exact ⟨e, he, heq⟩
    · intro h ps hps p hp
      obtain ⟨e, he, heq⟩ := h p (by rw [hps]; exact hp)
      exact List.mem_map.2 ⟨e, he, heq⟩

/-- The value returned for preferences that carry both lists, in terms of the
candidate pool: the loop runs over the reordered pool. -/
theorem generatePlan_pool (shuffle : List CourseRecord → List CourseRecord)
    (rs : List String) (cl : List Int) (d : String) (parsedAudit : Option AuditRecord)
    (courseCatalog : Option (List CourseRecord)) :
    generatePlan shuffle ⟨some rs, some cl, d⟩ parsedAudit courseCatalog =
      Except.ok
        ⟨(buildPlan (mathMax cl) (shuffle (candidatePool rs parsedAudit courseCatalog))
            ⟨[], JSNum.num 0⟩).suggestedPlan,
         (buildPlan (mathMax cl) (shuffle (candidatePool rs parsedAudit courseCatalog))
            ⟨[], JSNum.num 0⟩).currentCredits,
         ⟨some rs, mathMax cl,
           newSet ((completedCoursesOf parsedAudit).map (fun c => c.code) ++
             (inProgressCoursesOf parsedAudit).map (fun c => c.code))⟩⟩ := by
  obtain ⟨req, hmem, hgen⟩ := generatePlan_some shuffle rs cl d parsedAudit courseCatalog
  have hpool : (courseCatalog.getD []).filter
      (isPossible req
        (newSet ((completedCoursesOf parsedAudit).map (fun c => c.code) ++
          (inProgressCoursesOf parsedAudit).map (fun c => c.code)))
        ((completedCoursesOf parsedAudit).map (fun c => c.code))) =
      candidatePool rs parsedAudit courseCatalog := by
    unfold candidatePool
    apply List.filter_congr
    intro c _
    exact isPossible_eq_isCandidate rs parsedAudit req hmem c
  rw [hgen, hpool]

theorem creditTotal_cons (c : CourseRecord) (l : List CourseRecord) :
    creditTotal (c :: l) = c.credits.value + creditTotal l := by
  simp [creditTotal]

theorem creditTotal_pos (l : List CourseRecord)
    (hpos : ∀ c ∈ l, ∃ k : Int, c.credits = Credits.num k ∧ 0 < k) (hne : l ≠ []) :
    0 < creditTotal l := by
  induction l with
  | nil => exact absurd rfl hne
  | cons c rest ih =>
    obtain ⟨k, hk, hkpos⟩ := hpos c (List.mem_cons_self _ _)
    rw [creditTotal_cons, hk]
    by_cases hrest : rest = []
    · rw [hrest]; simpa [creditTotal] using hkpos
    · have := ih (fun x hx => hpos x (List.mem_cons_of_mem _ hx)) hrest
      simp only [Credits.value]
      omega

theorem creditTotal_perm (l1 l2 : List CourseRecord) (h : List.Perm l1 l2) :
    creditTotal l1 = creditTotal l2 := by
  unfold creditTotal
  exact (h.map (fun c => c.credits.value)).sum_eq

/-- When the courses still to visit are at most as many as the plan has room
for, have positive credits and fit together under the ceiling, the loop
selects every one of them. -/
theorem buildPlan_all (m : Int) (pool : List CourseRecord) (st : LoopState) (a : Int)
    (hcur : st.currentCredits = JSNum.num a)
    (hlen : st.suggestedPlan.length + pool.length ≤ 5)
    (hpos : ∀ c ∈ pool, ∃ k : Int, c.credits = Credits.num k ∧ 0 < k)
    (hsum : a + creditTotal pool ≤ m) :
    buildPlan (JSNum.num m) pool st =
      ⟨st.suggestedPlan ++ pool, JSNum.num (a + creditTotal pool)⟩ := by
  induction pool generalizing st a with
  | nil =>
    cases st with
    | mk plan cur =>
      simp only [buildPlan, List.append_nil] at hcur ⊢
      rw [hcur]
      simp [creditTotal]
  | cons c rest ih =>
    obtain ⟨k, hk, hkpos⟩ := hpos c (List.mem_cons_self _ _)
    have hposrest : ∀ x ∈ rest, ∃ k : Int, x.credits = Credits.num k ∧ 0 < k :=
      fun x hx => hpos x (List.mem_cons_of_mem _ hx)
    have htot : creditTotal (c :: rest) = k + creditTotal rest := by
      rw [creditTotal_cons, hk]; rfl
    rw [htot] at hsum ⊢
    have hrestnn : 0 ≤ creditTotal rest := by
      by_cases hrest : rest = []
      · rw [hrest]; simp [creditTotal]
      · exact le_of_lt (creditTotal_pos rest hposrest hrest)
    have hadd : JSNum.add st.currentCredits (toNumber c.credits) = JSNum.num (a + k) := by
      rw [hcur, hk]; rfl
    have hfit : JSNum.le (JSNum.add st.currentCredits (toNumber c.credits)) (JSNum.num m)
        = true := by
      rw [hadd]
      simp only [JSNum.le, decide_eq_true_eq]
      omega
    have hunfold : buildPlan (JSNum.num m) (c :: rest) st =
        if (decide ((st.suggestedPlan ++ [c]).length ≥ 5) ||
            JSNum.ge (JSNum.num (a + k)) (JSNum.num m)) = true then
          ⟨st.suggestedPlan ++ [c], JSNum.num (a + k)⟩
        else buildPlan (JSNum.num m) rest ⟨st.suggestedPlan ++ [c], JSNum.num (a + k)⟩ := by
      have hfit2 : JSNum.le (JSNum.num (a + k)) (JSNum.num m) = true := by
        rw [← hadd]; exact hfit
      simp only [buildPlan, hadd, if_pos hfit2]
    rw [hunfold]
    simp only [List.length_cons] at hlen
    by_cases hrest : rest = []
    · subst hrest
      have hfinal : (⟨st.suggestedPlan ++ [c], JSNum.num (a + k)⟩ : LoopState) =
          ⟨st.suggestedPlan ++ [c], JSNum.num (a + (k + creditTotal []))⟩ := by
        simp [creditTotal]
      by_cases hstop : (decide ((st.suggestedPlan ++ [c]).length ≥ 5) ||
          JSNum.ge (JSNum.num (a + k)) (JSNum.num m)) = true
      · rw [if_pos hstop]; exact hfinal
      · rw [if_neg hstop]; exact hfinal
    · have hrestpos := creditTotal_pos rest hposrest hrest
      have hrestlen : 0 < rest.length := List.length_pos.2 hrest
      have hgo : ¬ ((decide ((st.suggestedPlan ++ [c]).length ≥ 5) ||
          JSNum.ge (JSNum.num (a + k)) (JSNum.num m)) = true) := by
        simp only [List.length_append, List.length_singleton, JSNum.ge, JSNum.le,
          Bool.or_eq_true, decide_eq_true_eq, not_or]
        constructor <;> omega
      rw [if_neg hgo]
      have := ih ⟨st.suggestedPlan ++ [c], JSNum.num (a + k)⟩ (a + k) rfl
        (by simp only [List.length_append, List.length_singleton]; omega) hposrest (by omega)
      rw [this]
      simp [add_assoc]

/-! ## The loop as a pass over flagged positions -/

theorem pick_cons (c : CourseRecord) (rest : List CourseRecord) (b : Bool) (f : List Bool) :
    pick (c :: rest) (b :: f) = (if b = true then [c] else []) ++ pick rest f := by
  cases b <;> rfl

theorem pick_replicate_false (l : List CourseRecord) (n : Nat) :
    pick l (List.replicate n false) = [] := by
  induction l generalizing n with
  | nil => cases n <;> rfl
  | cons c rest ih =>
    cases n with
    | zero => rfl
    | succ n => rw [List.replicate_succ, pick_cons, ih]; rfl

theorem planAfter_zero (pool : List CourseRecord) (flags : List Bool) :
    planAfter pool flags 0 = [] := by
  unfold planAfter
  rw [List.take_zero, List.take_zero]
  rfl

theorem planAfter_cons_succ (c : CourseRecord) (rest : List CourseRecord) (b : Bool)
    (f : List Bool) (k : Nat) :
    planAfter (c :: rest) (b :: f) (k + 1) =
      (if b = true then [c] else []) ++ planAfter rest f k := by
  unfold planAfter
  rw [List.take_succ_cons, List.take_succ_cons, pick_cons]

/-- After all positions the flagged courses are the whole pick. -/
theorem planAfter_length (pool : List CourseRecord) (flags : List Bool)
    (h : flags.length = pool.length) : planAfter pool flags pool.length = pick pool flags := by
  unfold planAfter
  rw [List.take_length, ← h, List.take_length]

/-- For a numeric running sum and a ceiling that is not `NaN`, `>=` fails
exactly when the ceiling is above the sum. -/
theorem ge_eq_false_iff_gt (a : Int) (m : JSNum) (hm : m ≠ JSNum.nan) :
    ¬ (JSNum.ge (JSNum.num a) m = true) ↔ JSNum.gt m (JSNum.num a) = true := by
  cases m with
  | negInf => simp [JSNum.ge, JSNum.le, JSNum.gt]
  | num b => simp [JSNum.ge, JSNum.le, JSNum.gt]
  | nan => exact absurd rfl hm

/-- One step of the loop on a course that fits, written out. -/
theorem buildPlan_cons_fit (m : JSNum) (c : CourseRecord) (rest : List CourseRecord)
    (st : LoopState)
    (hfit : JSNum.le (JSNum.add st.currentCredits (toNumber c.credits)) m = true) :
    buildPlan m (c :: rest) st =
      if (decide ((st.suggestedPlan ++ [c]).length ≥ 5) ||
          JSNum.ge (JSNum.add st.currentCredits (toNumber c.credits)) m) = true then
        ⟨st.suggestedPlan ++ [c], JSNum.add st.currentCredits (toNumber c.credits)⟩
      else buildPlan m rest
        ⟨st.suggestedPlan ++ [c], JSNum.add st.currentCredits (toNumber c.credits)⟩ := by
  simp only [buildPlan, if_pos hfit]

/-- One step of the loop on a course that does not fit, written out. -/
theorem buildPlan_cons_skip (m : JSNum) (c : CourseRecord) (rest : List CourseRecord)
    (st : LoopState)
    (hfit : ¬ JSNum.le (JSNum.add st.currentCredits (toNumber c.credits)) m = true) :
    buildPlan m (c :: rest) st =
      if (decide (st.suggestedPlan.length ≥ 5) || JSNum.ge st.currentCredits m) = true then st
      else buildPlan m rest st := by
  simp only [buildPlan, if_neg hfit]

/-- A sum that passed the credit test is a number. -/
theorem add_isNum_of_le (a : Int) (x : Credits) (m : JSNum)
    (hfit : JSNum.le (JSNum.add (JSNum.num a) (toNumber x)) m = true) :
    ∃ b, JSNum.add (JSNum.num a) (toNumber x) = JSNum.num b := by
  cases x with
  | absent =>
    have := le_add_nan (JSNum.num a) m
    simp only [toNumber] at hfit
    rw [this] at hfit
    exact absurd hfit Bool.false_ne_true
  | null => exact ⟨a + 0, rfl⟩
  | num k => exact ⟨a + k, rfl⟩

/-- The loop is a pass over flagged positions: a position is flagged exactly
when the pass was still open after every earlier position (fewer than five
courses, running sum below the ceiling) and the course fits under the ceiling;
the resulting plan is the initial plan followed by the flagged courses. -/
theorem buildPlan_flags (m : JSNum) (hm : m ≠ JSNum.nan) (pool : List CourseRecord)
    (st : LoopState) (hinv : st.currentCredits = sumCredits st.suggestedPlan)
    (hnum : ∃ a, st.currentCredits = JSNum.num a) :
    ∃ flags : List Bool, flags.length = pool.length ∧
      (buildPlan m pool st).suggestedPlan = st.suggestedPlan ++ pick pool flags ∧
      ∀ i c, pool[i]? = some c →
        (flags[i]? = some true ↔
          (∀ j < i, (st.suggestedPlan ++ planAfter pool flags (j + 1)).length < 5 ∧
            JSNum.gt m (sumCredits (st.suggestedPlan ++ planAfter pool flags (j + 1))) = true) ∧
          JSNum.le (JSNum.add (sumCredits (st.suggestedPlan ++ planAfter pool flags i))
            (toNumber c.credits)) m = true) := by
  induction pool generalizing st with
  | nil =>
    refine ⟨[], rfl, ?_, ?_⟩
    · simp [buildPlan, pick]
    · intro i c h
      simp at h
  | cons c rest ih =>
    -- the state after visiting `c`, and whether `c` was selected
    obtain ⟨b, st1, hb, hplan1, hinv1, hnum1, hstep⟩ : ∃ (b : Bool) (st1 : LoopState),
        (b = true ↔ JSNum.le (JSNum.add st.currentCredits (toNumber c.credits)) m = true) ∧
        st1.suggestedPlan = st.suggestedPlan ++ (if b = true then [c] else []) ∧
        st1.currentCredits = sumCredits st1.suggestedPlan ∧
        (∃ a, st1.currentCredits = JSNum.num a) ∧
        buildPlan m (c :: rest) st =
          if (decide (st1.suggestedPlan.length ≥ 5) || JSNum.ge st1.currentCredits m) = true
          then st1 else buildPlan m rest st1 := by
      by_cases hfit : JSNum.le (JSNum.add st.currentCredits (toNumber c.credits)) m = true
      · refine ⟨true, ⟨st.suggestedPlan ++ [c],
          JSNum.add st.currentCredits (toNumber c.credits)⟩, ?_, rfl, ?_, ?_, ?_⟩
        · simp [hfit]
        · show JSNum.add st.currentCredits (toNumber c.credits) =
            sumCredits (st.suggestedPlan ++ [c])
          rw [sumCredits_append, hinv]
        · obtain ⟨a, ha⟩ := hnum
          rw [ha] at hfit
          show ∃ b, JSNum.add st.currentCredits (toNumber c.credits) = JSNum.num b
          rw [ha]
          exact add_isNum_of_le a c.credits m hfit
        · exact buildPlan_cons_fit m c rest st hfit
      · refine ⟨false, st, ?_, ?_, hinv, hnum, buildPlan_cons_skip m c rest st hfit⟩
        · simp [hfit]
        · simp
    -- the pass stays open after `c` exactly when the loop does not break
    have hopen : (¬ (decide (st1.suggestedPlan.length ≥ 5) ||
          JSNum.ge st1.currentCredits m) = true) ↔
        (st1.suggestedPlan.length < 5 ∧
          JSNum.gt m (sumCredits st1.suggestedPlan) = true) := by
      obtain ⟨a1, ha1⟩ := hnum1
      rw [← hinv1, ha1, ← ge_eq_false_iff_gt a1 m hm]
      simp only [Bool.or_eq_true, decide_eq_true_eq, not_or, ge_iff_le, not_le]
    have hfirst : ∀ f : List Bool,
        st.suggestedPlan ++ planAfter (c :: rest) (b :: f) 0 = st.suggestedPlan := by
      intro f
      rw [planAfter_zero, List.append_nil]
    have hnext : ∀ (f : List Bool) (k : Nat),
        st.suggestedPlan ++ planAfter (c :: rest) (b :: f) (k + 1) =
          st1.suggestedPlan ++ planAfter rest f k := by
      intro f k
      rw [planAfter_cons_succ, hplan1, List.append_assoc]
    have hzero : ∀ (f : List Bool) (c2 : CourseRecord), (c :: rest)[0]? = some c2 →
        ((b :: f)[0]? = some true ↔
          (∀ j < 0, (st.suggestedPlan ++ planAfter (c :: rest) (b :: f) (j + 1)).length < 5 ∧
            JSNum.gt m (sumCredits (st.suggestedPlan ++
              planAfter (c :: rest) (b :: f) (j + 1))) = true) ∧
          JSNum.le (JSNum.add (sumCredits (st.suggestedPlan ++
            planAfter (c :: rest) (b :: f) 0)) (toNumber c2.credits)) m = true) := by
      intro f c2 hc2
      have hcc : c = c2 := by simpa using hc2
      subst hcc
      rw [hfirst, ← hinv, ← hb]
      simp
    rw [hstep]
    by_cases hstop : (decide (st1.suggestedPlan.length ≥ 5) ||
        JSNum.ge st1.currentCredits m) = true
    · rw [if_pos hstop]
      refine ⟨b :: List.replicate rest.length false, by simp, ?_, ?_⟩
      · rw [pick_cons, pick_replicate_false, List.append_nil, hplan1]
      · intro i c2 hi
        cases i with
        | zero => exact hzero _ c2 hi
        | succ k =>
          have hk : k < rest.length := by
            rw [List.getElem?_cons_succ] at hi
            exact (List.getElem?_eq_some_iff.1 hi).1
          constructor
          · intro h
            rw [List.getElem?_cons_succ, List.getElem?_replicate, if_pos hk] at h
            exact absurd (Option.some.inj h) (by decide)
          · rintro ⟨hall, _⟩
            have h0 := hall 0 (Nat.succ_pos k)
            rw [hnext, planAfter_zero, List.append_nil] at h0
            exact absurd hstop (hopen.2 h0)
    · rw [if_neg hstop]
      obtain ⟨f, hlen, hplan, hidx⟩ := ih st1 hinv1 hnum1
      refine ⟨b :: f, by simp [hlen], ?_, ?_⟩
      · rw [hplan, pick_cons, hplan1, List.append_assoc]
      · intro i c2 hi
        cases i with
        | zero => exact hzero _ c2 hi
        | succ k =>
          have hk : rest[k]? = some c2 := by
            rw [List.getElem?_cons_succ] at hi
            exact hi
          rw [List.getElem?_cons_succ, hidx k c2 hk, hnext]
          constructor
          · rintro ⟨hall, hle⟩
            refine ⟨?_, hle⟩
            intro j hj
            cases j with
            | zero =>
              rw [hnext, planAfter_zero, List.append_nil]
              exact hopen.1 hstop
            | succ j2 =>
              rw [hnext]
              exact hall j2 (by omega)
          · rintro ⟨hall, hle⟩
            refine ⟨?_, hle⟩
            intro j hj
            have := hall (j + 1) (by omega)
            rw [hnext] at this
            exact this

/-- With non-negative credits the running sum never decreases. -/
theorem buildPlan_mono (m : JSNum) (pool : List CourseRecord) (st : LoopState) (a : Int)
    (hcur : st.currentCredits = JSNum.num a)
    (hnn : ∀ c ∈ pool, ∃ k : Int, c.credits = Credits.num k ∧ 0 ≤ k) :
    ∃ t : Int, (buildPlan m pool st).currentCredits = JSNum.num t ∧ a ≤ t := by
  induction pool generalizing st a with
  | nil => exact ⟨a, by simpa only [buildPlan] using hcur, le_refl a⟩
  | cons c rest ih =>
    obtain ⟨k, hk, hk0⟩ := hnn c (List.mem_cons_self _ _)
    have hrest : ∀ x ∈ rest, ∃ k : Int, x.credits = Credits.num k ∧ 0 ≤ k :=
      fun x hx => hnn x (List.mem_cons_of_mem _ hx)
    have hadd : JSNum.add st.currentCredits (toNumber c.credits) = JSNum.num (a + k) := by
      rw [hcur, hk]; rfl
    by_cases hfit : JSNum.le (JSNum.add st.currentCredits (toNumber c.credits)) m = true
    · rw [buildPlan_cons_fit m c rest st hfit]
      split
      · exact ⟨a + k, hadd, by omega⟩
      · obtain ⟨t, ht, hle⟩ := ih ⟨st.suggestedPlan ++ [c],
          JSNum.add st.currentCredits (toNumber c.credits)⟩ (a + k) hadd hrest
        exact ⟨t, ht, by omega⟩
    · rw [buildPlan_cons_skip m c rest st hfit]
      split
      · exact ⟨a, hcur, le_refl a⟩
      · exact ih st a hcur hrest

/-- With non-negative credits, when the loop ends with fewer than five courses
and a total below the ceiling, every visited course that is not in the plan
exceeds the capacity that is left. -/
theorem buildPlan_maximal (m : Int) (pool : List CourseRecord) (st : LoopState) (a : Int)
    (hcur : st.currentCredits = JSNum.num a)
    (hnn : ∀ c ∈ pool, ∃ k : Int, c.credits = Credits.num k ∧ 0 ≤ k) (t : Int)
    (ht : (buildPlan (JSNum.num m) pool st).currentCredits = JSNum.num t)
    (hlen : (buildPlan (JSNum.num m) pool st).suggestedPlan.length < 5) (htm : t < m) :
    ∀ c ∈ pool, c ∉ (buildPlan (JSNum.num m) pool st).suggestedPlan →
      ∃ k : Int, c.credits = Credits.num k ∧ m - t < k := by
  induction pool generalizing st a with
  | nil => intro c hc; simp at hc
  | cons c rest ih =>
    obtain ⟨k, hk, hk0⟩ := hnn c (List.mem_cons_self _ _)
    have hrest : ∀ x ∈ rest, ∃ k : Int, x.credits = Credits.num k ∧ 0 ≤ k :=
      fun x hx => hnn x (List.mem_cons_of_mem _ hx)
    have hadd : JSNum.add st.currentCredits (toNumber c.credits) = JSNum.num (a + k) := by
      rw [hcur, hk]; rfl
    by_cases hfit : JSNum.le (JSNum.add st.currentCredits (toNumber c.credits)) (JSNum.num m)
        = true
    · rw [buildPlan_cons_fit (JSNum.num m) c rest st hfit] at ht hlen ⊢
      by_cases hstop : (decide ((st.suggestedPlan ++ [c]).length ≥ 5) ||
          JSNum.ge (JSNum.add st.currentCredits (toNumber c.credits)) (JSNum.num m)) = true
      · rw [if_pos hstop] at ht hlen
        exfalso
        have ht2 : JSNum.add st.currentCredits (toNumber c.credits) = JSNum.num t := ht
        have hlen2 : (st.suggestedPlan ++ [c]).length < 5 := hlen
        rw [ht2] at hstop
        simp only [JSNum.ge, JSNum.le, Bool.or_eq_true, decide_eq_true_eq] at hstop
        omega
      · rw [if_neg hstop] at ht hlen ⊢
        intro x hx hnot
        rcases List.mem_cons.1 hx with rfl | hx
        · exfalso
          obtain ⟨sel, _, heq⟩ := buildPlan_sublist (JSNum.num m) rest
            ⟨st.suggestedPlan ++ [x], JSNum.add st.currentCredits (toNumber x.credits)⟩
          apply hnot
          rw [heq]
          simp
        · exact ih _ (a + k) hadd hrest ht hlen x hx hnot
    · rw [buildPlan_cons_skip (JSNum.num m) c rest st hfit] at ht hlen ⊢
      by_cases hstop : (decide (st.suggestedPlan.length ≥ 5) ||
          JSNum.ge st.currentCredits (JSNum.num m)) = true
      · rw [if_pos hstop] at ht hlen
        exfalso
        rw [ht] at hstop
        simp only [JSNum.ge, JSNum.le, Bool.or_eq_true, decide_eq_true_eq] at hstop
        omega
      · rw [if_neg hstop] at ht hlen ⊢
        intro x hx hnot
        rcases List.mem_cons.1 hx with rfl | hx
        · obtain ⟨t2, ht2, hle⟩ := buildPlan_mono (JSNum.num m) rest st a hcur hrest
          rw [ht] at ht2
          have htt : t = t2 := by injection ht2
          rw [hadd] at hfit
          simp only [JSNum.le, decide_eq_true_eq, not_le] at hfit
          exact ⟨k, hk, by omega⟩
        · exact ih st a hcur hrest ht hlen x hx hnot

/-! ## Exact and rounded arithmetic -/

theorem roundDouble_of_le (n : Int) (h : n.natAbs ≤ 9007199254740992) : roundDouble n = n := by
  unfold roundDouble
  rw [if_pos h]

/-- Adding a credits value with the rounding `+` gives the exact sum when that
sum is at most 2^53 in magnitude. -/
theorem addDouble_toNumber (a : Int) (x : Credits)
    (h : ∀ k, toNumber x = JSNum.num k →
      -9007199254740992 ≤ a + k ∧ a + k ≤ 9007199254740992) :
    JSNum.addDouble (JSNum.num a) (toNumber x) = JSNum.add (JSNum.num a) (toNumber x) := by
  cases x with
  | absent => rfl
  | null =>
    have h0 := h 0 rfl
    show JSNum.num (roundDouble (a + 0)) = JSNum.num (a + 0)
    rw [roundDouble_of_le]
    omega
  | num k =>
    have hk := h k rfl
    show JSNum.num (roundDouble (a + k)) = JSNum.num (a + k)
    rw [roundDouble_of_le]
    omega

/-- One step of the rounding loop, in terms of the exact `+`, when the sum is
exact. -/
theorem buildPlanJS_cons (m : JSNum) (c : CourseRecord) (rest : List CourseRecord)
    (st : LoopState)
    (hadd : JSNum.addDouble st.currentCredits (toNumber c.credits) =
      JSNum.add st.currentCredits (toNumber c.credits)) :
    buildPlanJS m (c :: rest) st =
      if JSNum.le (JSNum.add st.currentCredits (toNumber c.credits)) m = true then
        if (decide ((st.suggestedPlan ++ [c]).length ≥ 5) ||
            JSNum.ge (JSNum.add st.currentCredits (toNumber c.credits)) m) = true then
          ⟨st.suggestedPlan ++ [c], JSNum.add st.currentCredits (toNumber c.credits)⟩
        else buildPlanJS m rest
          ⟨st.suggestedPlan ++ [c], JSNum.add st.currentCredits (toNumber c.credits)⟩
      else
        if (decide (st.suggestedPlan.length ≥ 5) || JSNum.ge st.currentCredits m) = true then st
        else buildPlanJS m rest st := by
  by_cases hfit : JSNum.le (JSNum.add st.currentCredits (toNumber c.credits)) m = true
  · simp only [buildPlanJS, hadd, if_pos hfit]
  · simp only [buildPlanJS, hadd, if_neg hfit]

/-- One step of the exact loop, in the same form. -/
theorem buildPlan_cons (m : JSNum) (c : CourseRecord) (rest : List CourseRecord)
    (st : LoopState) :
    buildPlan m (c :: rest) st =
      if JSNum.le (JSNum.add st.currentCredits (toNumber c.credits)) m = true then
        if (decide ((st.suggestedPlan ++ [c]).length ≥ 5) ||
            JSNum.ge (JSNum.add st.currentCredits (toNumber c.credits)) m) = true then
          ⟨st.suggestedPlan ++ [c], JSNum.add st.currentCredits (toNumber c.credits)⟩
        else buildPlan m rest
          ⟨st.suggestedPlan ++ [c], JSNum.add st.currentCredits (toNumber c.credits)⟩
      else
        if (decide (st.suggestedPlan.length ≥ 5) || JSNum.ge st.currentCredits m) = true then st
        else buildPlan m rest st := by
  by_cases hfit : JSNum.le (JSNum.add st.currentCredits (toNumber c.credits)) m = true
  · simp only [buildPlan, if_pos hfit]
  · simp only [buildPlan, if_neg hfit]

/-- With number credits of magnitude at most 2^50 the rounding loop and the
exact loop coincide: a plan holds at most five courses, so no sum leaves the
range in which doubles are exact. -/
theorem buildPlanJS_eq_buildPlan (m : JSNum) (pool : List CourseRecord) (st : LoopState)
    (a : Int) (hcur : st.currentCredits = JSNum.num a)
    (hlo : -((st.suggestedPlan.length : Int) * 1125899906842624) ≤ a)
    (hhi : a ≤ (st.suggestedPlan.length : Int) * 1125899906842624)
    (hlen : st.suggestedPlan.length < 5)
    (hpool : ∀ c ∈ pool, ∀ k, c.credits = Credits.num k →
      -1125899906842624 ≤ k ∧ k ≤ 1125899906842624) :
    buildPlanJS m pool st = buildPlan m pool st := by
  induction pool generalizing st a with
  | nil => rfl
  | cons c rest ih =>
    have hrest : ∀ x ∈ rest, ∀ k, x.credits = Credits.num k →
        -1125899906842624 ≤ k ∧ k ≤ 1125899906842624 :=
      fun x hx => hpool x (List.mem_cons_of_mem _ hx)
    have hlenI : (st.suggestedPlan.length : Int) < 5 := by exact_mod_cast hlen
    have hnn : (0 : Int) ≤ (st.suggestedPlan.length : Int) := Int.natCast_nonneg _
    -- the credits of `c` as an integer within the bound
    obtain ⟨k, hk, hklo, hkhi⟩ : ∃ k : Int, (toNumber c.credits = JSNum.nan ∨
        toNumber c.credits = JSNum.num k) ∧
        -1125899906842624 ≤ k ∧ k ≤ 1125899906842624 := by
      cases hcr : c.credits with
      | absent => exact ⟨0, Or.inl rfl, by decide, by decide⟩
      | null => exact ⟨0, Or.inr rfl, by decide, by decide⟩
      | num k =>
        obtain ⟨h1, h2⟩ := hpool c (List.mem_cons_self _ _) k hcr
        exact ⟨k, Or.inr rfl, h1, h2⟩
    have hadd : JSNum.addDouble st.currentCredits (toNumber c.credits) =
        JSNum.add st.currentCredits (toNumber c.credits) := by
      rw [hcur]
      apply addDouble_toNumber
      intro k2 hk2
      rcases hk with hk | hk
      · rw [hk] at hk2; cases hk2
      · rw [hk] at hk2
        have : k = k2 := by injection hk2
        subst this
        constructor <;> omega
    rw [buildPlanJS_cons m c rest st hadd, buildPlan_cons m c rest st]
    by_cases hfit : JSNum.le (JSNum.add st.currentCredits (toNumber c.credits)) m = true
    · rw [if_pos hfit, if_pos hfit]
      by_cases hstop : (decide ((st.suggestedPlan ++ [c]).length ≥ 5) ||
          JSNum.ge (JSNum.add st.currentCredits (toNumber c.credits)) m) = true
      · rw [if_pos hstop, if_pos hstop]
      · rw [if_neg hstop, if_neg hstop]
        have hnum : toNumber c.credits = JSNum.num k := by
          rcases hk with hk | hk
          · rw [hcur, hk] at hfit
            exact absurd hfit (by simp [JSNum.add, JSNum.le])
          · exact hk
        have hlen1 : (st.suggestedPlan ++ [c]).length < 5 := by
          simp only [Bool.or_eq_true, decide_eq_true_eq, not_or] at hstop
          omega
        have hlenEq : (((st.suggestedPlan ++ [c]).length : Nat) : Int) =
            (st.suggestedPlan.length : Int) + 1 := by
          simp
        apply ih ⟨st.suggestedPlan ++ [c], JSNum.add st.currentCredits (toNumber c.credits)⟩
          (a + k) (by rw [hcur, hnum]; rfl)
        · show -((((st.suggestedPlan ++ [c]).length : Nat) : Int) * 1125899906842624) ≤ a + k
          rw [hlenEq]; omega
        · show a + k ≤ (((st.suggestedPlan ++ [c]).length : Nat) : Int) * 1125899906842624
          rw [hlenEq]; omega
        · exact hlen1
        · exact hrest
    · rw [if_neg hfit, if_neg hfit]
      by_cases hstop : (decide (st.suggestedPlan.length ≥ 5) ||
          JSNum.ge st.currentCredits m) = true
      · rw [if_pos hstop, if_pos hstop]
      · rw [if_neg hstop, if_neg hstop]
        exact ih st a hcur hlo hhi hlen hrest

/-- The value returned by the engine run when `creditLoad` fits in one call:
the rounding loop runs over the reordered candidate pool. -/
theorem generatePlanJS_pool (spreadLimit : Nat)
    (shuffle : List CourseRecord → List CourseRecord)
    (rs : List String) (cl : List Int) (d : String) (parsedAudit : Option AuditRecord)
    (courseCatalog : Option (List CourseRecord)) (hlimit : cl.length ≤ spreadLimit) :
    generatePlanJS spreadLimit shuffle ⟨some rs, some cl, d⟩ parsedAudit courseCatalog =
      Except.ok
        ⟨(buildPlanJS (mathMax cl) (shuffle (candidatePool rs parsedAudit courseCatalog))
            ⟨[], JSNum.num 0⟩).suggestedPlan,
         (buildPlanJS (mathMax cl) (shuffle (candidatePool rs parsedAudit courseCatalog))
            ⟨[], JSNum.num 0⟩).currentCredits,
         ⟨some rs, mathMax cl,
           newSet ((completedCoursesOf parsedAudit).map (fun c => c.code) ++
             (inProgressCoursesOf parsedAudit).map (fun c => c.code))⟩⟩ := by
  obtain ⟨req, hreq, hmem⟩ := collectRequired_some rs parsedAudit
  have hpool : (courseCatalog.getD []).filter
      (isPossible req
        (newSet ((completedCoursesOf parsedAudit).map (fun c => c.code) ++
          (inProgressCoursesOf parsedAudit).map (fun c => c.code)))
        ((completedCoursesOf parsedAudit).map (fun c => c.code))) =
      candidatePool rs parsedAudit courseCatalog := by
    unfold candidatePool
    apply List.filter_congr
    intro c _
    exact isPossible_eq_isCandidate rs parsedAudit req hmem c
  rw [← hpool]
  simp only [generatePlanJS, hreq, maxCreditsJS, if_pos hlimit]
  rfl

/-- With a `creditLoad` longer than the engine's argument limit the run ends
with the `RangeError` of the spread call. -/
theorem generatePlanJS_rangeError (spreadLimit : Nat)
    (shuffle : List CourseRecord → List CourseRecord)
    (rs : List String) (cl : List Int) (d : String) (parsedAudit : Option AuditRecord)
    (courseCatalog : Option (List CourseRecord)) (hlimit : spreadLimit < cl.length) :
    generatePlanJS spreadLimit shuffle ⟨some rs, some cl, d⟩ parsedAudit courseCatalog =
      Except.error JSError.rangeError := by
  obtain ⟨req, hreq, _⟩ := collectRequired_some rs parsedAudit
  simp only [generatePlanJS, hreq, maxCreditsJS, if_neg (Nat.not_le.2 hlimit)]
  rfl

/-- When `creditLoad` fits in one call and the number credits of the catalog
are at most 2^50 in magnitude, the engine run and the exact run return the
same value. -/
theorem generatePlanJS_eq_generatePlan (spreadLimit : Nat)
    (shuffle : List CourseRecord → List CourseRecord)
    (hperm : ∀ l, List.Perm (shuffle l) l)
    (rs : List String) (cl : List Int) (d : String) (parsedAudit : Option AuditRecord)
    (courseCatalog : Option (List CourseRecord)) (hlimit : cl.length ≤ spreadLimit)
    (hcred : ∀ c ∈ courseCatalog.getD [], ∀ k, c.credits = Credits.num k →
      -1125899906842624 ≤ k ∧ k ≤ 1125899906842624) :
    generatePlanJS spreadLimit shuffle ⟨some rs, some cl, d⟩ parsedAudit courseCatalog =
      generatePlan shuffle ⟨some rs, some cl, d⟩ parsedAudit courseCatalog := by
  rw [generatePlanJS_pool spreadLimit shuffle rs cl d parsedAudit courseCatalog hlimit,
    generatePlan_pool shuffle rs cl d parsedAudit courseCatalog]
  have hpool : ∀ c ∈ shuffle (candidatePool rs parsedAudit courseCatalog), ∀ k,
      c.credits = Credits.num k → -1125899906842624 ≤ k ∧ k ≤ 1125899906842624 := by
    intro c hc
    have hc2 : c ∈ candidatePool rs parsedAudit courseCatalog := (hperm _).mem_iff.1 hc
    exact hcred c (List.mem_filter.1 hc2).1
  rw [buildPlanJS_eq_buildPlan (mathMax cl) (shuffle (candidatePool rs parsedAudit courseCatalog))
    ⟨[], JSNum.num 0⟩ 0 rfl (by simp) (by simp) (by simp) hpool]

/-- With positive number credits that sum, together with the running total,
to at most 2^53, the rounding loop and the exact loop coincide: every sum the
loop can form is an integer between 0 and 2^53. -/
theorem buildPlanJS_eq_buildPlan_of_pos (m : JSNum) (pool : List CourseRecord)
    (st : LoopState) (a : Int) (hcur : st.currentCredits = JSNum.num a) (ha : 0 ≤ a)
    (hpos : ∀ c ∈ pool, ∃ k : Int, c.credits = Credits.num k ∧ 0 < k)
    (hsum : a + creditTotal pool ≤ 9007199254740992) :
    buildPlanJS m pool st = buildPlan m pool st := by
  induction pool generalizing st a with
  | nil => rfl
  | cons c rest ih =>
    obtain ⟨k, hk, hkpos⟩ := hpos c (List.mem_cons_self _ _)
    have hposrest : ∀ x ∈ rest, ∃ k : Int, x.credits = Credits.num k ∧ 0 < k :=
      fun x hx => hpos x (List.mem_cons_of_mem _ hx)
    have htot : creditTotal (c :: rest) = k + creditTotal rest := by
      rw [creditTotal_cons, hk]; rfl
    rw [htot] at hsum
    have hrestnn : 0 ≤ creditTotal rest := by
      by_cases hrest : rest = []
      · rw [hrest]; simp [creditTotal]
      · exact le_of_lt (creditTotal_pos rest hposrest hrest)
    have hadd : JSNum.addDouble st.currentCredits (toNumber c.credits) =
        JSNum.add st.currentCredits (toNumber c.credits) := by
      rw [hcur]
      apply addDouble_toNumber
      intro k2 hk2
      rw [hk] at hk2
      have : k = k2 := by injection hk2
      subst this
      constructor <;> omega
    rw [buildPlanJS_cons m c rest st hadd, buildPlan_cons m c rest st]
    by_cases hfit : JSNum.le (JSNum.add st.currentCredits (toNumber c.credits)) m = true
    · rw [if_pos hfit, if_pos hfit]
      by_cases hstop : (decide ((st.suggestedPlan ++ [c]).length ≥ 5) ||
          JSNum.ge (JSNum.add st.currentCredits (toNumber c.credits)) m) = true
      · rw [if_pos hstop, if_pos hstop]
      · rw [if_neg hstop, if_neg hstop]
        exact ih ⟨st.suggestedPlan ++ [c], JSNum.add st.currentCredits (toNumber c.credits)⟩
          (a + k) (by rw [hcur, hk]; rfl) (by omega) hposrest (by omega)
    · rw [if_neg hfit, if_neg hfit]
      by_cases hstop : (decide (st.suggestedPlan.length ≥ 5) ||
          JSNum.ge st.currentCredits m) = true
      · rw [if_pos hstop, if_pos hstop]
      · rw [if_neg hstop, if_neg hstop]
        exact ih st a hcur ha hposrest (by omega)

/-! ## Properties of the returned plan

In the statements below the preferences carry a list of requirements `rs` and a
list of credit-load values `cl`; `generatePlan_some` shows that the function
then returns a plan, and each statement describes that plan. -/

/-- C1: under every ordering of the candidate pool, no course of the returned
plan has the code of a completed or of an in-progress course of the audit,
whether or not a selected requirement group lists it. -/
theorem plan_excludes_taken (shuffle : List CourseRecord → List CourseRecord)
    (hperm : ∀ l, List.Perm (shuffle l) l) (rs : List String) (cl : List Int) (d : String)
    (parsedAudit : Option AuditRecord) (courseCatalog : Option (List CourseRecord)) :
    ∃ r, generatePlan shuffle ⟨some rs, some cl, d⟩ parsedAudit courseCatalog = Except.ok r ∧
      ∀ c ∈ r.plan, (∀ e ∈ completedCoursesOf parsedAudit, e.code ≠ c.code) ∧
        (∀ e ∈ inProgressCoursesOf parsedAudit, e.code ≠ c.code) := by
  obtain ⟨req, _, hgen⟩ := generatePlan_some shuffle rs cl d parsedAudit courseCatalog
  refine ⟨_, hgen, ?_⟩
  intro c hc
  obtain ⟨_, hposs⟩ := mem_plan_possible shuffle hperm _ _ _ c hc
  obtain ⟨_, htaken, _⟩ := (isPossible_iff _ _ _ c).1 hposs
  rw [mem_newSet, List.mem_append, not_or] at htaken
  constructor
  · intro e he heq
    exact htaken.1 (List.mem_map.2 ⟨e, he, heq⟩)
  · intro e he heq
    exact htaken.2 (List.mem_map.2 ⟨e, he, heq⟩)

/-- Instance of C1 on the audit that lists its completed CS101 and its
in-progress CS201 under the selected Major Core group, pool reversed. -/
theorem plan_excludes_taken_witness :
    (∀ l : List CourseRecord, List.Perm (List.reverse l) l) ∧
    ∃ r, generatePlan List.reverse ⟨some ["Major Core"], some [15], "Moderate"⟩
        (some busyAudit) (some sampleCatalog) = Except.ok r ∧
      ∀ c ∈ r.plan, (∀ e ∈ completedCoursesOf (some busyAudit), e.code ≠ c.code) ∧
        (∀ e ∈ inProgressCoursesOf (some busyAudit), e.code ≠ c.code) :=
  ⟨fun l => List.reverse_perm l,
    plan_excludes_taken List.reverse (fun l => List.reverse_perm l) ["Major Core"] [15]
      "Moderate" (some busyAudit) (some sampleCatalog)⟩

/-- C2: under every ordering, each prerequisite code of each course of the
returned plan is the code of a completed course of the audit; hence a course
with a prerequisite that no completed course carries (one that is only in
progress included) is not in the plan. -/
theorem plan_prereqs_completed (shuffle : List CourseRecord → List CourseRecord)
    (hperm : ∀ l, List.Perm (shuffle l) l) (rs : List String) (cl : List Int) (d : String)
    (parsedAudit : Option AuditRecord) (courseCatalog : Option (List CourseRecord)) :
    ∃ r, generatePlan shuffle ⟨some rs, some cl, d⟩ parsedAudit courseCatalog = Except.ok r ∧
      (∀ c ∈ r.plan, ∀ ps, c.prereqs = some ps → ∀ p ∈ ps,
        ∃ e ∈ completedCoursesOf parsedAudit, e.code = some p) ∧
      (∀ c : CourseRecord,
        (∃ ps, c.prereqs = some ps ∧ ∃ p ∈ ps,
          ∀ e ∈ completedCoursesOf parsedAudit, e.code ≠ some p) → c ∉ r.plan) := by
  obtain ⟨req, _, hgen⟩ := generatePlan_some shuffle rs cl d parsedAudit courseCatalog
  refine ⟨_, hgen, ?_⟩
  have hmain : ∀ c ∈ (buildPlan (mathMax cl)
      (shuffle ((courseCatalog.getD []).filter
        (isPossible req
          (newSet ((completedCoursesOf parsedAudit).map (fun c => c.code) ++
            (inProgressCoursesOf parsedAudit).map (fun c => c.code)))
          ((completedCoursesOf parsedAudit).map (fun c => c.code)))))
      ⟨[], JSNum.num 0⟩).suggestedPlan, ∀ ps, c.prereqs = some ps → ∀ p ∈ ps,
        ∃ e ∈ completedCoursesOf parsedAudit, e.code = some p := by
    intro c hc ps hps p hp
    obtain ⟨_, hposs⟩ := mem_plan_possible shuffle hperm _ _ _ c hc
    obtain ⟨_, _, hpre⟩ := (isPossible_iff _ _ _ c).1 hposs
    have hmem := (checkPrerequisites_iff _ _).1 hpre ps hps p hp
    obtain ⟨e, he, heq⟩ := List.mem_map.1 hmem
    exact ⟨e, he, heq⟩
  refine ⟨hmain, ?_⟩
  rintro c ⟨ps, hps, p, hp, hnone⟩ hc
  obtain ⟨e, he, heq⟩ := hmain c hc ps hps p hp
  exact hnone e he heq

/-- Instance of C2 on the audit in which CS201, the prerequisite of CS301, is
only in progress. -/
theorem plan_prereqs_completed_witness :
    (∀ l : List CourseRecord, List.Perm (id l) l) ∧
    ∃ r, generatePlan id ⟨some ["Major Core", "Math"], some [15], "Moderate"⟩
        (some busyAudit) (some sampleCatalog) = Except.ok r ∧
      (∀ c ∈ r.plan, ∀ ps, c.prereqs = some ps → ∀ p ∈ ps,
        ∃ e ∈ completedCoursesOf (some busyAudit), e.code = some p) ∧
      (∀ c : CourseRecord,
        (∃ ps, c.prereqs = some ps ∧ ∃ p ∈ ps,
          ∀ e ∈ completedCoursesOf (some busyAudit), e.code ≠ some p) → c ∉ r.plan) :=
  ⟨fun l => List.Perm.refl l,
    plan_prereqs_completed id (fun l => List.Perm.refl l) ["Major Core", "Math"] [15]
      "Moderate" (some busyAudit) (some sampleCatalog)⟩

/-- C3: when `creditLoad` is non-empty with greatest value `m` and `0 ≤ m`, the
returned `totalCredits` is a number at most `m`, whatever the credits of the
catalog (negative or missing ones included) and whatever the ordering. -/
theorem totalCredits_le_ceiling (shuffle : List CourseRecord → List CourseRecord)
    (rs : List String) (cl : List Int) (d : String) (parsedAudit : Option AuditRecord)
    (courseCatalog : Option (List CourseRecord)) (m : Int) (hm : m ∈ cl)
    (hmax : ∀ x ∈ cl, x ≤ m) (h0 : 0 ≤ m) :
    ∃ r, generatePlan shuffle ⟨some rs, some cl, d⟩ parsedAudit courseCatalog = Except.ok r ∧
      ∃ t : Int, r.totalCredits = JSNum.num t ∧ t ≤ m := by
  obtain ⟨req, _, hgen⟩ := generatePlan_some shuffle rs cl d parsedAudit courseCatalog
  refine ⟨_, hgen, ?_⟩
  rw [mathMax_eq cl m hm hmax]
  have hstart : JSNum.le (JSNum.num 0) (JSNum.num m) = true := by simp [JSNum.le, h0]
  have hle := buildPlan_le (JSNum.num m)
    (shuffle ((courseCatalog.getD []).filter
      (isPossible req
        (newSet ((completedCoursesOf parsedAudit).map (fun c => c.code) ++
          (inProgressCoursesOf parsedAudit).map (fun c => c.code)))
        ((completedCoursesOf parsedAudit).map (fun c => c.code)))))
    ⟨[], JSNum.num 0⟩ hstart
  obtain ⟨t, ht⟩ := buildPlan_isNum (JSNum.num m)
    (shuffle ((courseCatalog.getD []).filter
      (isPossible req
        (newSet ((completedCoursesOf parsedAudit).map (fun c => c.code) ++
          (inProgressCoursesOf parsedAudit).map (fun c => c.code)))
        ((completedCoursesOf parsedAudit).map (fun c => c.code)))))
    ⟨[], JSNum.num 0⟩ ⟨0, rfl⟩
  refine ⟨t, ht, ?_⟩
  rw [ht] at hle
  simpa [JSNum.le] using hle

/-- Instance of C3 with `creditLoad = [12, 15]`, whose greatest value is 15. -/
theorem totalCredits_le_ceiling_witness :
    (15 : Int) ∈ [12, 15] ∧ (∀ x ∈ ([12, 15] : List Int), x ≤ 15) ∧ (0 : Int) ≤ 15 ∧
    ∃ r, generatePlan id ⟨some ["Major Core", "Math"], some [12, 15], "Moderate"⟩
        (some busyAudit) (some sampleCatalog) = Except.ok r ∧
      ∃ t : Int, r.totalCredits = JSNum.num t ∧ t ≤ 15 :=
  ⟨by decide, by decide, by decide,
    totalCredits_le_ceiling id ["Major Core", "Math"] [12, 15] "Moderate" (some busyAudit)
      (some sampleCatalog) 15 (by decide) (by decide) (by decide)⟩

/-- C4: for every input and every ordering the returned plan has at most five
courses. -/
theorem plan_length_le_five (shuffle : List CourseRecord → List CourseRecord)
    (rs : List String) (cl : List Int) (d : String) (parsedAudit : Option AuditRecord)
    (courseCatalog : Option (List CourseRecord)) :
    ∃ r, generatePlan shuffle ⟨some rs, some cl, d⟩ parsedAudit courseCatalog = Except.ok r ∧
      r.plan.length ≤ 5 := by
  obtain ⟨req, _, hgen⟩ := generatePlan_some shuffle rs cl d parsedAudit courseCatalog
  exact ⟨_, hgen, buildPlan_length _ _ ⟨[], JSNum.num 0⟩ (by decide)⟩

/-- C5, as stated, fails: with credits 2^53, 1 and 1, all numbers, each
addition of 1 is rounded away, so the function returns `totalCredits` 2^53 for
a plan whose credits sum to 2^53 + 2. -/
theorem totalCredits_rounded_below_sum :
    (∀ c ∈ [bigCourse, oneCredit, oneMore], ∃ k : Int, c.credits = Credits.num k) ∧
    generatePlanJS 65536 id ⟨some ["Major Core"], some [18014398509481984], "Moderate"⟩
        (some bigAudit) (some [bigCourse, oneCredit, oneMore]) =
      Except.ok ⟨[bigCourse, oneCredit, oneMore], JSNum.num 9007199254740992,
        ⟨some ["Major Core"], JSNum.num 18014398509481984, []⟩⟩ ∧
    creditTotal [bigCourse, oneCredit, oneMore] = 9007199254740994 := by
  refine ⟨?_, rfl, rfl⟩
  intro c hc
  simp only [List.mem_cons, List.mem_singleton, List.not_mem_nil, or_false] at hc
  rcases hc with rfl | rfl | rfl
  · exact ⟨9007199254740992, rfl⟩
  · exact ⟨1, rfl⟩
  · exact ⟨1, rfl⟩

/-- C5, amended: when the credits of the catalog are integers of magnitude at
most 2^50 and `creditLoad` fits in one spread call, then under every ordering
the credits of the courses of the returned plan are numbers and the returned
`totalCredits` is their sum, which is 0 for an empty plan. -/
theorem totalCredits_eq_sum (spreadLimit : Nat)
    (shuffle : List CourseRecord → List CourseRecord)
    (hperm : ∀ l, List.Perm (shuffle l) l) (rs : List String) (cl : List Int) (d : String)
    (parsedAudit : Option AuditRecord) (courseCatalog : Option (List CourseRecord))
    (hlimit : cl.length ≤ spreadLimit)
    (hcred : ∀ c ∈ courseCatalog.getD [], ∃ k : Int, c.credits = Credits.num k ∧
      -1125899906842624 ≤ k ∧ k ≤ 1125899906842624) :
    ∃ r, generatePlanJS spreadLimit shuffle ⟨some rs, some cl, d⟩ parsedAudit courseCatalog =
        Except.ok r ∧
      (∃ creds : List Int, r.plan.map (fun c => c.credits) = creds.map Credits.num ∧
        r.totalCredits = JSNum.num creds.sum) ∧
      (r.plan = [] → r.totalCredits = JSNum.num 0) := by
  have hbound : ∀ c ∈ courseCatalog.getD [], ∀ k, c.credits = Credits.num k →
      -1125899906842624 ≤ k ∧ k ≤ 1125899906842624 := by
    intro c hc k hk
    obtain ⟨k2, hk2, h1, h2⟩ := hcred c hc
    rw [hk2] at hk
    have : k2 = k := by injection hk
    subst this
    exact ⟨h1, h2⟩
  rw [generatePlanJS_eq_generatePlan spreadLimit shuffle hperm rs cl d parsedAudit
    courseCatalog hlimit hbound]
  refine ⟨_, generatePlan_pool shuffle rs cl d parsedAudit courseCatalog, ?_⟩
  have hsum := buildPlan_sum (mathMax cl)
    (shuffle (candidatePool rs parsedAudit courseCatalog)) ⟨[], JSNum.num 0⟩ rfl
  constructor
  · have hnum : ∀ c ∈ (buildPlan (mathMax cl)
        (shuffle (candidatePool rs parsedAudit courseCatalog))
        ⟨[], JSNum.num 0⟩).suggestedPlan, ∃ k : Int, c.credits = Credits.num k := by
      intro c hc
      obtain ⟨sel, hsub, heq⟩ := buildPlan_sublist (mathMax cl)
        (shuffle (candidatePool rs parsedAudit courseCatalog)) ⟨[], JSNum.num 0⟩
      rw [heq, List.nil_append] at hc
      have hc2 : c ∈ candidatePool rs parsedAudit courseCatalog :=
        (hperm _).mem_iff.1 (hsub.subset hc)
      obtain ⟨k, hk, _⟩ := hcred c (List.mem_filter.1 hc2).1
      exact ⟨k, hk⟩
    obtain ⟨creds, hmap, hfold⟩ := sumCredits_foldl _ 0 hnum
    refine ⟨creds, hmap, ?_⟩
    show (buildPlan _ _ _).currentCredits = _
    rw [hsum]
    unfold sumCredits
    rw [hfold, zero_add]
  · intro hnil
    show (buildPlan _ _ _).currentCredits = _
    rw [hsum]
    have hnil2 : (buildPlan (mathMax cl)
        (shuffle (candidatePool rs parsedAudit courseCatalog))
        ⟨[], JSNum.num 0⟩).suggestedPlan = [] := hnil
    rw [hnil2]
    rfl

/-- Instance of amended C5 on the four-course catalog, pool reversed. -/
theorem totalCredits_eq_sum_witness :
    (∀ l : List CourseRecord, List.Perm (List.reverse l) l) ∧
    ([12, 15] : List Int).length ≤ 65536 ∧
    (∀ c ∈ (some sampleCatalog).getD [], ∃ k : Int, c.credits = Credits.num k ∧
      -1125899906842624 ≤ k ∧ k ≤ 1125899906842624) ∧
    ∃ r, generatePlanJS 65536 List.reverse ⟨some ["Major Core", "Math"], some [12, 15],
        "Moderate"⟩ (some sampleAudit) (some sampleCatalog) = Except.ok r ∧
      (∃ creds : List Int, r.plan.map (fun c => c.credits) = creds.map Credits.num ∧
        r.totalCredits = JSNum.num creds.sum) ∧
      (r.plan = [] → r.totalCredits = JSNum.num 0) := by
  have hcred : ∀ c ∈ (some sampleCatalog).getD [], ∃ k : Int, c.credits = Credits.num k ∧
      -1125899906842624 ≤ k ∧ k ≤ 1125899906842624 := by
    intro c hc
    simp only [Option.getD_some, sampleCatalog, List.mem_cons, List.mem_singleton,
      List.not_mem_nil, or_false] at hc
    rcases hc with rfl | rfl | rfl | rfl
    · exact ⟨3, rfl, by decide, by decide⟩
    · exact ⟨3, rfl, by decide, by decide⟩
    · exact ⟨4, rfl, by decide, by decide⟩
    · exact ⟨4, rfl, by decide, by decide⟩
  exact ⟨fun l => List.reverse_perm l, by decide, hcred,
    totalCredits_eq_sum 65536 List.reverse (fun l => List.reverse_perm l)
      ["Major Core", "Math"] [12, 15] "Moderate" (some sampleAudit) (some sampleCatalog)
      (by decide) hcred⟩

/-- C6, as stated, fails: a catalog that lists the code CS201 in two records
gets both records into the plan, so the code occurs twice. -/
theorem plan_repeats_catalog_duplicate :
    generatePlan id ⟨some ["Major Core"], some [15], "Moderate"⟩ (some sampleAudit)
        (some [cs101, cs201, cs201Again]) =
      Except.ok ⟨[cs201, cs201Again], JSNum.num 6,
        ⟨some ["Major Core"], JSNum.num 15, [some "CS101"]⟩⟩ ∧
    ¬ ([cs201, cs201Again].map (fun c => c.code)).Nodup :=
  ⟨rfl, by decide⟩

/-- C6, amended: when no code occurs twice among the records of the catalog,
no code occurs twice in the returned plan, under every ordering. -/
theorem plan_codes_nodup (shuffle : List CourseRecord → List CourseRecord)
    (hperm : ∀ l, List.Perm (shuffle l) l) (rs : List String) (cl : List Int) (d : String)
    (parsedAudit : Option AuditRecord) (courseCatalog : Option (List CourseRecord))
    (hcat : ((courseCatalog.getD []).map (fun c => c.code)).Nodup) :
    ∃ r, generatePlan shuffle ⟨some rs, some cl, d⟩ parsedAudit courseCatalog = Except.ok r ∧
      (r.plan.map (fun c => c.code)).Nodup := by
  obtain ⟨req, _, hgen⟩ := generatePlan_some shuffle rs cl d parsedAudit courseCatalog
  refine ⟨_, hgen, ?_⟩
  obtain ⟨sel, hsub, heq⟩ := buildPlan_sublist (mathMax cl)
    (shuffle ((courseCatalog.getD []).filter
      (isPossible req
        (newSet ((completedCoursesOf parsedAudit).map (fun c => c.code) ++
          (inProgressCoursesOf parsedAudit).map (fun c => c.code)))
        ((completedCoursesOf parsedAudit).map (fun c => c.code)))))
    ⟨[], JSNum.num 0⟩
  show ((buildPlan _ _ _).suggestedPlan.map (fun c => c.code)).Nodup
  rw [heq, List.nil_append]
  have hfilter := (List.filter_sublist (p := isPossible req
        (newSet ((completedCoursesOf parsedAudit).map (fun c => c.code) ++
          (inProgressCoursesOf parsedAudit).map (fun c => c.code)))
        ((completedCoursesOf parsedAudit).map (fun c => c.code)))
      (courseCatalog.getD [])).map (fun c => c.code)
  have hpool := ((hperm _).map (fun c : CourseRecord => c.code)).nodup_iff.2
    (List.Nodup.sublist hfilter hcat)
  exact List.Nodup.sublist (hsub.map (fun c => c.code)) hpool

/-- Instance of amended C6 on the four-course catalog, pool reversed. -/
theorem plan_codes_nodup_witness :
    (∀ l : List CourseRecord, List.Perm (List.reverse l) l) ∧
    (((some sampleCatalog).getD []).map (fun c => c.code)).Nodup ∧
    ∃ r, generatePlan List.reverse ⟨some ["Major Core", "Math"], some [18], "Easy"⟩
        (some sampleAudit) (some sampleCatalog) = Except.ok r ∧
      (r.plan.map (fun c => c.code)).Nodup :=
  ⟨fun l => List.reverse_perm l, by decide,
    plan_codes_nodup List.reverse (fun l => List.reverse_perm l) ["Major Core", "Math"] [18]
      "Easy" (some sampleAudit) (some sampleCatalog) (by decide)⟩

/-- C7: under every ordering, each course of the returned plan is a record of
the supplied catalog whose code is listed by a group of the audit's remaining
requirements whose category is among the selected requirements; and selecting
in addition a category that names no group of the audit leaves the plan and
its total unchanged. -/
theorem plan_courses_required (shuffle : List CourseRecord → List CourseRecord)
    (hperm : ∀ l, List.Perm (shuffle l) l) (rs : List String) (cl : List Int) (d : String)
    (parsedAudit : Option AuditRecord) (courseCatalog : Option (List CourseRecord)) :
    ∃ r, generatePlan shuffle ⟨some rs, some cl, d⟩ parsedAudit courseCatalog = Except.ok r ∧
      (∀ c ∈ r.plan, c ∈ courseCatalog.getD [] ∧
        ∃ g ∈ remainingRequirementsOf parsedAudit, g.category ∈ rs ∧
          ∃ e ∈ g.courses.getD [], e.code = c.code) ∧
      (∀ cat : String, (∀ g ∈ remainingRequirementsOf parsedAudit, g.category ≠ cat) →
        ∃ r2, generatePlan shuffle ⟨some (cat :: rs), some cl, d⟩ parsedAudit courseCatalog =
            Except.ok r2 ∧ r2.plan = r.plan ∧ r2.totalCredits = r.totalCredits) := by
  obtain ⟨req, hreq, hmem⟩ := collectRequired_some rs parsedAudit
  refine ⟨_, generatePlan_of_collect shuffle rs cl d parsedAudit courseCatalog req hreq, ?_, ?_⟩
  · intro c hc
    obtain ⟨hcat, hposs⟩ := mem_plan_possible shuffle hperm _ _ _ c hc
    obtain ⟨hin, _, _⟩ := (isPossible_iff _ _ _ c).1 hposs
    exact ⟨hcat, (hmem c.code).1 hin⟩
  · intro cat hcat
    have hcongr : collectRequired (some (cat :: rs)) parsedAudit = Except.ok req := by
      rw [collectRequired_congr rs (cat :: rs) parsedAudit]
      · exact hreq
      · intro g hg
        constructor
        · intro h
          rcases List.mem_cons.1 h with h | h
          · exact absurd h (hcat g hg)
          · exact h
        · intro h
          exact List.mem_cons_of_mem _ h
    exact ⟨_, generatePlan_of_collect shuffle (cat :: rs) cl d parsedAudit courseCatalog req
      hcongr, rfl, rfl⟩

/-- Instance of C7 where the selected General Education names no group. -/
theorem plan_courses_required_witness :
    (∀ l : List CourseRecord, List.Perm (id l) l) ∧
    ∃ r, generatePlan id ⟨some ["General Education", "Math"], some [15], "Moderate"⟩
        (some busyAudit) (some sampleCatalog) = Except.ok r ∧
      (∀ c ∈ r.plan, c ∈ (some sampleCatalog).getD [] ∧
        ∃ g ∈ remainingRequirementsOf (some busyAudit),
          g.category ∈ ["General Education", "Math"] ∧
          ∃ e ∈ g.courses.getD [], e.code = c.code) ∧
      (∀ cat : String, (∀ g ∈ remainingRequirementsOf (some busyAudit), g.category ≠ cat) →
        ∃ r2, generatePlan id ⟨some (cat :: ["General Education", "Math"]), some [15],
            "Moderate"⟩ (some busyAudit) (some sampleCatalog) =
            Except.ok r2 ∧ r2.plan = r.plan ∧ r2.totalCredits = r.totalCredits) :=
  ⟨fun l => List.Perm.refl l,
    plan_courses_required id (fun l => List.Perm.refl l) ["General Education", "Math"] [15]
      "Moderate" (some busyAudit) (some sampleCatalog)⟩

/-- C8, as stated, fails: with empty requirements, with an empty credit load
and with a credit load of non-positive values the function returns a plan
object, not an error; the ceilings it used are 15, `-Infinity` and 0. -/
theorem invalid_preferences_return_plan :
    generatePlan id ⟨some [], some [15], "Moderate"⟩ (some sampleAudit)
        (some [cs101, cs201]) =
      Except.ok ⟨[], JSNum.num 0, ⟨some [], JSNum.num 15, [some "CS101"]⟩⟩ ∧
    generatePlan id ⟨some ["Major Core"], some [], "Moderate"⟩ (some sampleAudit)
        (some [cs101, cs201]) =
      Except.ok ⟨[], JSNum.num 0, ⟨some ["Major Core"], JSNum.negInf, [some "CS101"]⟩⟩ ∧
    generatePlan id ⟨some ["Major Core"], some [0, -3], "Moderate"⟩ (some sampleAudit)
        (some [cs101, cs201]) =
      Except.ok ⟨[], JSNum.num 0, ⟨some ["Major Core"], JSNum.num 0, [some "CS101"]⟩⟩ :=
  ⟨rfl, rfl, rfl⟩

/-- C8, amended: the function does not validate the preferences. For every
list of requirements and every list of credit-load values, the empty lists and
non-positive values included, it returns a plan object whose ceiling is
`Math.max` of the credit load; when the requirements are empty or the credit
load is empty (ceiling `-Infinity`), the plan is empty with total 0. -/
theorem generatePlan_without_validation (shuffle : List CourseRecord → List CourseRecord)
    (hperm : ∀ l, List.Perm (shuffle l) l) (rs : List String) (cl : List Int) (d : String)
    (parsedAudit : Option AuditRecord) (courseCatalog : Option (List CourseRecord)) :
    ∃ r, generatePlan shuffle ⟨some rs, some cl, d⟩ parsedAudit courseCatalog = Except.ok r ∧
      r.criteria.creditLoad = mathMax cl ∧
      (rs = [] → r.plan = [] ∧ r.totalCredits = JSNum.num 0) ∧
      (cl = [] → r.plan = [] ∧ r.totalCredits = JSNum.num 0 ∧
        r.criteria.creditLoad = JSNum.negInf) := by
  obtain ⟨req, hmem, hgen⟩ := generatePlan_some shuffle rs cl d parsedAudit courseCatalog
  refine ⟨_, hgen, rfl, ?_, ?_⟩
  · intro hrs
    have hempty : (courseCatalog.getD []).filter
        (isPossible req
          (newSet ((completedCoursesOf parsedAudit).map (fun c => c.code) ++
            (inProgressCoursesOf parsedAudit).map (fun c => c.code)))
          ((completedCoursesOf parsedAudit).map (fun c => c.code))) = [] := by
      rw [List.filter_eq_nil_iff]
      intro c _ hposs
      obtain ⟨hin, _, _⟩ := (isPossible_iff _ _ _ c).1 hposs
      obtain ⟨g, _, hg, _⟩ := (hmem c.code).1 hin
      rw [hrs] at hg
      simp at hg
    have hpool := (hperm ((courseCatalog.getD []).filter
        (isPossible req
          (newSet ((completedCoursesOf parsedAudit).map (fun c => c.code) ++
            (inProgressCoursesOf parsedAudit).map (fun c => c.code)))
          ((completedCoursesOf parsedAudit).map (fun c => c.code)))))
    rw [hempty] at hpool
    show (buildPlan _ _ _).suggestedPlan = [] ∧ (buildPlan _ _ _).currentCredits = JSNum.num 0
    rw [hempty, hpool.eq_nil]
    exact ⟨rfl, rfl⟩
  · intro hcl
    show (buildPlan _ _ _).suggestedPlan = [] ∧ (buildPlan _ _ _).currentCredits = JSNum.num 0 ∧
      mathMax cl = JSNum.negInf
    rw [hcl, mathMax_nil, buildPlan_negInf]
    exact ⟨rfl, rfl, rfl⟩

/-- Instance of amended C8 with empty requirements and an empty credit load. -/
theorem generatePlan_without_validation_witness :
    (∀ l : List CourseRecord, List.Perm (List.reverse l) l) ∧
    ∃ r, generatePlan List.reverse ⟨some [], some [], "Moderate"⟩ (some busyAudit)
        (some sampleCatalog) = Except.ok r ∧
      r.criteria.creditLoad = mathMax [] ∧
      (([] : List String) = [] → r.plan = [] ∧ r.totalCredits = JSNum.num 0) ∧
      (([] : List Int) = [] → r.plan = [] ∧ r.totalCredits = JSNum.num 0 ∧
        r.criteria.creditLoad = JSNum.negInf) :=
  ⟨fun l => List.reverse_perm l,
    generatePlan_without_validation List.reverse (fun l => List.reverse_perm l) [] []
      "Moderate" (some busyAudit) (some sampleCatalog)⟩

/-- C9, as stated, fails: a catalog record without a code is selected when a
group entry of a selected category lacks its code too, a record with negative
credits is selected like any other, and a record whose credits are `null` is
selected as a course of 0 credits. -/
theorem malformed_records_selected :
    generatePlan id ⟨some ["Major Core"], some [15], "Moderate"⟩ (some looseAudit)
        (some [noCode, negCredits, nullCredits]) =
      Except.ok ⟨[noCode, negCredits, nullCredits], JSNum.num 0,
        ⟨some ["Major Core"], JSNum.num 15, []⟩⟩ ∧
    noCode.code = none ∧ negCredits.credits = Credits.num (-3) ∧
    nullCredits.credits = Credits.null :=
  ⟨rfl, rfl, rfl, rfl⟩

/-- C9, amended: under every ordering, a catalog record that has no credits
property (`undefined`) is never a course of the returned plan, and a record
whose code is missing is a course of the plan only if some entry of a group of
a selected category is missing its code as well. Nothing is said of `null` or
negative credits. -/
theorem plan_excludes_missing_fields (shuffle : List CourseRecord → List CourseRecord)
    (hperm : ∀ l, List.Perm (shuffle l) l) (rs : List String) (cl : List Int) (d : String)
    (parsedAudit : Option AuditRecord) (courseCatalog : Option (List CourseRecord)) :
    ∃ r, generatePlan shuffle ⟨some rs, some cl, d⟩ parsedAudit courseCatalog = Except.ok r ∧
      ∀ c ∈ r.plan, c.credits ≠ Credits.absent ∧
        (c.code = none → ∃ g ∈ remainingRequirementsOf parsedAudit, g.category ∈ rs ∧
          ∃ e ∈ g.courses.getD [], e.code = none) := by
  obtain ⟨req, hmem, hgen⟩ := generatePlan_some shuffle rs cl d parsedAudit courseCatalog
  refine ⟨_, hgen, ?_⟩
  intro c hc
  constructor
  · rcases buildPlan_credits _ _ _ c hc with h | h
    · simp at h
    · exact h
  · intro hnone
    obtain ⟨_, hposs⟩ := mem_plan_possible shuffle hperm _ _ _ c hc
    obtain ⟨hin, _, _⟩ := (isPossible_iff _ _ _ c).1 hposs
    have hlisted := (hmem c.code).1 hin
    rw [hnone] at hlisted
    exact hlisted

/-- Instance of amended C9: the catalog holds a record without credits, CS306,
which the selected Major Core group lists; it is the one record left out. -/
theorem plan_excludes_missing_fields_witness :
    (∀ l : List CourseRecord, List.Perm (id l) l) ∧
    (∃ r, generatePlan id ⟨some ["Major Core"], some [15], "Moderate"⟩ (some looseAudit)
        (some [noCredits, noCode, negCredits, nullCredits]) = Except.ok r ∧
      ∀ c ∈ r.plan, c.credits ≠ Credits.absent ∧
        (c.code = none → ∃ g ∈ remainingRequirementsOf (some looseAudit),
          g.category ∈ ["Major Core"] ∧ ∃ e ∈ g.courses.getD [], e.code = none)) ∧
    generatePlan id ⟨some ["Major Core"], some [15], "Moderate"⟩ (some looseAudit)
        (some [noCredits, noCode, negCredits, nullCredits]) =
      Except.ok ⟨[noCode, negCredits, nullCredits], JSNum.num 0,
        ⟨some ["Major Core"], JSNum.num 15, []⟩⟩ ∧
    noCredits ∈ candidatePool ["Major Core"] (some looseAudit)
      (some [noCredits, noCode, negCredits, nullCredits]) :=
  ⟨fun l => List.Perm.refl l,
    plan_excludes_missing_fields id (fun l => List.Perm.refl l) ["Major Core"] [15]
      "Moderate" (some looseAudit) (some [noCredits, noCode, negCredits, nullCredits]),
    rfl, by decide⟩

/-- C10: when no group of the audit's remaining requirements has a category
among the selected requirements, the function returns the empty plan with
`totalCredits` 0, for every credit load, catalog and ordering. -/
theorem no_selected_group_empty_plan (shuffle : List CourseRecord → List CourseRecord)
    (hperm : ∀ l, List.Perm (shuffle l) l) (rs : List String) (cl : List Int) (d : String)
    (parsedAudit : Option AuditRecord) (courseCatalog : Option (List CourseRecord))
    (hno : ∀ g ∈ remainingRequirementsOf parsedAudit, g.category ∉ rs) :
    ∃ r, generatePlan shuffle ⟨some rs, some cl, d⟩ parsedAudit courseCatalog = Except.ok r ∧
      r.plan = [] ∧ r.totalCredits = JSNum.num 0 := by
  obtain ⟨req, hmem, hgen⟩ := generatePlan_some shuffle rs cl d parsedAudit courseCatalog
  refine ⟨_, hgen, ?_⟩
  have hempty : (courseCatalog.getD []).filter
      (isPossible req
        (newSet ((completedCoursesOf parsedAudit).map (fun c => c.code) ++
          (inProgressCoursesOf parsedAudit).map (fun c => c.code)))
        ((completedCoursesOf parsedAudit).map (fun c => c.code))) = [] := by
    rw [List.filter_eq_nil_iff]
    intro c _ hposs
    obtain ⟨hin, _, _⟩ := (isPossible_iff _ _ _ c).1 hposs
    obtain ⟨g, hg, hcat, _⟩ := (hmem c.code).1 hin
    exact hno g hg hcat
  have hpool := (hperm ((courseCatalog.getD []).filter
      (isPossible req
        (newSet ((completedCoursesOf parsedAudit).map (fun c => c.code) ++
          (inProgressCoursesOf parsedAudit).map (fun c => c.code)))
        ((completedCoursesOf parsedAudit).map (fun c => c.code)))))
  rw [hempty] at hpool
  show (buildPlan _ _ _).suggestedPlan = [] ∧ (buildPlan _ _ _).currentCredits = JSNum.num 0
  rw [hempty, hpool.eq_nil]
  exact ⟨rfl, rfl⟩

/-- Instance of C10: Technical Electives is selected, the audit's groups are
Major Core and Math. -/
theorem no_selected_group_empty_plan_witness :
    (∀ l : List CourseRecord, List.Perm (List.reverse l) l) ∧
    (∀ g ∈ remainingRequirementsOf (some busyAudit), g.category ∉ ["Technical Electives"]) ∧
    ∃ r, generatePlan List.reverse ⟨some ["Technical Electives"], some [12], "Intensive"⟩
        (some busyAudit) (some sampleCatalog) = Except.ok r ∧
      r.plan = [] ∧ r.totalCredits = JSNum.num 0 :=
  ⟨fun l => List.reverse_perm l, by decide,
    no_selected_group_empty_plan List.reverse (fun l => List.reverse_perm l)
      ["Technical Electives"] [12] "Intensive" (some busyAudit) (some sampleCatalog)
      (by decide)⟩

/-- C11, as stated, fails: the three candidates of 2^53 + 2, 1 and 1 credits
are positive and sum to the ceiling 2^53 + 4, yet in this order the sum after
the second is rounded up to the ceiling, the pass ends and the third candidate
is left out. -/
theorem rounding_leaves_candidate_out :
    candidatePool ["Major Core"] (some bigAudit) (some [bigCourse2, oneCredit, oneMore]) =
      [bigCourse2, oneCredit, oneMore] ∧
    (∀ c ∈ [bigCourse2, oneCredit, oneMore], ∃ k : Int, c.credits = Credits.num k ∧ 0 < k) ∧
    creditTotal [bigCourse2, oneCredit, oneMore] = 9007199254740996 ∧
    mathMax [9007199254740996] = JSNum.num 9007199254740996 ∧
    generatePlanJS 65536 id ⟨some ["Major Core"], some [9007199254740996], "Moderate"⟩
        (some bigAudit) (some [bigCourse2, oneCredit, oneMore]) =
      Except.ok ⟨[bigCourse2, oneCredit], JSNum.num 9007199254740996,
        ⟨some ["Major Core"], JSNum.num 9007199254740996, []⟩⟩ := by
  refine ⟨by decide, ?_, rfl, rfl, rfl⟩
  intro c hc
  simp only [List.mem_cons, List.mem_singleton, List.not_mem_nil, or_false] at hc
  rcases hc with rfl | rfl | rfl
  · exact ⟨9007199254740994, rfl, by decide⟩
  · exact ⟨1, rfl, by decide⟩
  · exact ⟨1, rfl, by decide⟩

/-- C11, amended: when the candidates are at most five, each with strictly
positive integer credits, their credits sum to at most the greatest
credit-load value `m`, `m` is at most 2^53 and `creditLoad` fits in one spread
call, the function selects all of them under every ordering: the plan is the
ordered candidate pool and `totalCredits` is the sum of their credits. -/
theorem all_candidates_selected (spreadLimit : Nat)
    (shuffle : List CourseRecord → List CourseRecord)
    (hperm : ∀ l, List.Perm (shuffle l) l) (rs : List String) (cl : List Int) (d : String)
    (parsedAudit : Option AuditRecord) (courseCatalog : Option (List CourseRecord))
    (hlimit : cl.length ≤ spreadLimit)
    (m : Int) (hm : m ∈ cl) (hmax : ∀ x ∈ cl, x ≤ m) (hm53 : m ≤ 9007199254740992)
    (hcount : (candidatePool rs parsedAudit courseCatalog).length ≤ 5)
    (hpos : ∀ c ∈ candidatePool rs parsedAudit courseCatalog,
      ∃ k : Int, c.credits = Credits.num k ∧ 0 < k)
    (hsum : creditTotal (candidatePool rs parsedAudit courseCatalog) ≤ m) :
    ∃ r, generatePlanJS spreadLimit shuffle ⟨some rs, some cl, d⟩ parsedAudit courseCatalog =
        Except.ok r ∧
      r.plan = shuffle (candidatePool rs parsedAudit courseCatalog) ∧
      r.totalCredits = JSNum.num (creditTotal (candidatePool rs parsedAudit courseCatalog)) := by
  refine ⟨_, generatePlanJS_pool spreadLimit shuffle rs cl d parsedAudit courseCatalog hlimit,
    ?_⟩
  have hp := hperm (candidatePool rs parsedAudit courseCatalog)
  have hpos2 : ∀ c ∈ shuffle (candidatePool rs parsedAudit courseCatalog),
      ∃ k : Int, c.credits = Credits.num k ∧ 0 < k := fun c hc => hpos c (hp.mem_iff.1 hc)
  have hexact := buildPlanJS_eq_buildPlan_of_pos (mathMax cl)
    (shuffle (candidatePool rs parsedAudit courseCatalog)) ⟨[], JSNum.num 0⟩ 0 rfl
    (le_refl 0) hpos2 (by rw [creditTotal_perm _ _ hp]; omega)
  have hall := buildPlan_all m (shuffle (candidatePool rs parsedAudit courseCatalog))
    ⟨[], JSNum.num 0⟩ 0 rfl
    (by simp only [List.length_nil, Nat.zero_add]; rw [hp.length_eq]; exact hcount)
    hpos2 (by rw [creditTotal_perm _ _ hp, zero_add]; exact hsum)
  rw [hexact, mathMax_eq cl m hm hmax, hall, creditTotal_perm _ _ hp, zero_add]
  exact ⟨rfl, rfl⟩

/-- Instance of amended C11 on the CS101 / CS201 scenario: the single candidate
CS201 gives the plan `[CS201]` with `totalCredits` 3. -/
theorem all_candidates_selected_witness :
    (∀ l : List CourseRecord, List.Perm (id l) l) ∧
    ([15] : List Int).length ≤ 65536 ∧
    (15 : Int) ∈ [15] ∧ (∀ x ∈ ([15] : List Int), x ≤ 15) ∧ (15 : Int) ≤ 9007199254740992 ∧
    (candidatePool ["Major Core"] (some sampleAudit) (some [cs101, cs201])).length ≤ 5 ∧
    (∀ c ∈ candidatePool ["Major Core"] (some sampleAudit) (some [cs101, cs201]),
      ∃ k : Int, c.credits = Credits.num k ∧ 0 < k) ∧
    creditTotal (candidatePool ["Major Core"] (some sampleAudit) (some [cs101, cs201])) ≤ 15 ∧
    (∃ r, generatePlanJS 65536 id ⟨some ["Major Core"], some [15], "Moderate"⟩
        (some sampleAudit) (some [cs101, cs201]) = Except.ok r ∧
      r.plan = id (candidatePool ["Major Core"] (some sampleAudit) (some [cs101, cs201])) ∧
      r.totalCredits = JSNum.num
        (creditTotal (candidatePool ["Major Core"] (some sampleAudit) (some [cs101, cs201])))) ∧
    generatePlanJS 65536 id ⟨some ["Major Core"], some [15], "Moderate"⟩ (some sampleAudit)
        (some [cs101, cs201]) =
      Except.ok ⟨[cs201], JSNum.num 3, ⟨some ["Major Core"], JSNum.num 15, [some "CS101"]⟩⟩ := by
  have hpool : candidatePool ["Major Core"] (some sampleAudit) (some [cs101, cs201]) =
      [cs201] := by decide
  have hpos : ∀ c ∈ candidatePool ["Major Core"] (some sampleAudit) (some [cs101, cs201]),
      ∃ k : Int, c.credits = Credits.num k ∧ 0 < k := by
    intro c hc
    rw [hpool, List.mem_singleton] at hc
    exact ⟨3, by rw [hc]; rfl, by decide⟩
  have hcount : (candidatePool ["Major Core"] (some sampleAudit)
      (some [cs101, cs201])).length ≤ 5 := by rw [hpool]; decide
  have hsum : creditTotal (candidatePool ["Major Core"] (some sampleAudit)
      (some [cs101, cs201])) ≤ 15 := by rw [hpool]; decide
  exact ⟨fun l => List.Perm.refl l, by decide, by decide, by decide, by decide, hcount, hpos,
    hsum,
    all_candidates_selected 65536 id (fun l => List.Perm.refl l) ["Major Core"] [15]
      "Moderate" (some sampleAudit) (some [cs101, cs201]) (by decide) 15 (by decide)
      (by decide) (by decide) hcount hpos hsum,
    rfl⟩

/-- C12, as stated, fails: on an engine that accepts at most 65536 arguments in
a call, a credit load of 200000 numbers makes `Math.max(...creditLoad)` throw a
`RangeError`, although the preferences are well formed. -/
theorem long_creditLoad_throws :
    generatePlanJS 65536 id ⟨some ["Major Core"], some (List.replicate 200000 15), "Moderate"⟩
        (some sampleAudit) (some [cs101, cs201]) = Except.error JSError.rangeError :=
  generatePlanJS_rangeError 65536 id ["Major Core"] (List.replicate 200000 15) "Moderate"
    (some sampleAudit) (some [cs101, cs201]) (by rw [List.length_replicate]; decide)

/-- C12, amended: for preferences that carry a list of requirements and a
credit load of at most as many numbers as the engine accepts as arguments of
one call, and for every audit and catalog (absent audit, absent catalog, absent
lists of the audit, a group without courses and a course without prerequisites
or credits included), the function returns a plan object and does not throw. -/
theorem generatePlan_never_throws (spreadLimit : Nat)
    (shuffle : List CourseRecord → List CourseRecord)
    (rs : List String) (cl : List Int) (d : String) (parsedAudit : Option AuditRecord)
    (courseCatalog : Option (List CourseRecord)) (hlimit : cl.length ≤ spreadLimit) :
    (∃ r, generatePlanJS spreadLimit shuffle ⟨some rs, some cl, d⟩ parsedAudit courseCatalog =
        Except.ok r) ∧
      ∀ e, generatePlanJS spreadLimit shuffle ⟨some rs, some cl, d⟩ parsedAudit
        courseCatalog ≠ Except.error e := by
  have hgen := generatePlanJS_pool spreadLimit shuffle rs cl d parsedAudit courseCatalog hlimit
  refine ⟨⟨_, hgen⟩, ?_⟩
  intro e he
  rw [hgen] at he
  exact Except.noConfusion he

/-- Instance of amended C12 with an absent audit and an absent catalog. -/
theorem generatePlan_never_throws_witness :
    ([12, 15] : List Int).length ≤ 65536 ∧
    (∃ r, generatePlanJS 65536 List.reverse ⟨some ["Major Core"], some [12, 15], "Easy"⟩
        none none = Except.ok r) ∧
      ∀ e, generatePlanJS 65536 List.reverse ⟨some ["Major Core"], some [12, 15], "Easy"⟩
        none none ≠ Except.error e :=
  ⟨by decide,
    generatePlan_never_throws 65536 List.reverse ["Major Core"] [12, 15] "Easy" none none
      (by decide)⟩

/-- C13: for a credit load with greatest value `m`, the returned criteria echo
the inputs: the selected requirements are the given ones, the credit load is
`m`, and the excluded courses are a duplicate-free list of exactly the codes of
the completed and of the in-progress courses. -/
theorem criteria_echo_inputs (shuffle : List CourseRecord → List CourseRecord)
    (rs : List String) (cl : List Int) (d : String) (parsedAudit : Option AuditRecord)
    (courseCatalog : Option (List CourseRecord)) (m : Int) (hm : m ∈ cl)
    (hmax : ∀ x ∈ cl, x ≤ m) :
    ∃ r, generatePlan shuffle ⟨some rs, some cl, d⟩ parsedAudit courseCatalog = Except.ok r ∧
      r.criteria.selectedRequirements = some rs ∧
      r.criteria.creditLoad = JSNum.num m ∧
      r.criteria.excludedCourses.Nodup ∧
      ∀ x, x ∈ r.criteria.excludedCourses ↔
        (∃ e ∈ completedCoursesOf parsedAudit, e.code = x) ∨
          (∃ e ∈ inProgressCoursesOf parsedAudit, e.code = x) := by
  refine ⟨_, generatePlan_pool shuffle rs cl d parsedAudit courseCatalog, rfl,
    mathMax_eq cl m hm hmax, nodup_newSet _, ?_⟩
  intro x
  show x ∈ newSet _ ↔ _
  rw [mem_newSet, List.mem_append, List.mem_map, List.mem_map]

/-- Instance of C13 with `creditLoad = [12, 18]` on the audit with one completed
and one in-progress course. -/
theorem criteria_echo_inputs_witness :
    (18 : Int) ∈ [12, 18] ∧ (∀ x ∈ ([12, 18] : List Int), x ≤ 18) ∧
    ∃ r, generatePlan List.reverse ⟨some ["Math"], some [12, 18], "Easy"⟩ (some busyAudit)
        (some sampleCatalog) = Except.ok r ∧
      r.criteria.selectedRequirements = some ["Math"] ∧
      r.criteria.creditLoad = JSNum.num 18 ∧
      r.criteria.excludedCourses.Nodup ∧
      ∀ x, x ∈ r.criteria.excludedCourses ↔
        (∃ e ∈ completedCoursesOf (some busyAudit), e.code = x) ∨
          (∃ e ∈ inProgressCoursesOf (some busyAudit), e.code = x) :=
  ⟨by decide, by decide,
    criteria_echo_inputs List.reverse ["Math"] [12, 18] "Easy" (some busyAudit)
      (some sampleCatalog) 18 (by decide) (by decide)⟩

/-- C15: the returned plan is one greedy left-to-right pass over the ordered
candidate pool. There are selection flags, one per position, such that the
plan is the list of the flagged courses in pool order, and the course at
position `i` is flagged if and only if (1) after each earlier position the plan
so far had fewer than five courses and its credit sum was below
`Math.max` of the credit load, and (2) the credit sum of the plan before
position `i` plus the credits of the course is at most that ceiling. A course
that does not fit is left unflagged and the pass goes on. -/
theorem plan_is_greedy_pass (shuffle : List CourseRecord → List CourseRecord)
    (rs : List String) (cl : List Int) (d : String) (parsedAudit : Option AuditRecord)
    (courseCatalog : Option (List CourseRecord)) :
    ∃ r, generatePlan shuffle ⟨some rs, some cl, d⟩ parsedAudit courseCatalog = Except.ok r ∧
      ∃ flags : List Bool,
        flags.length = (shuffle (candidatePool rs parsedAudit courseCatalog)).length ∧
        r.plan = pick (shuffle (candidatePool rs parsedAudit courseCatalog)) flags ∧
        ∀ i c, (shuffle (candidatePool rs parsedAudit courseCatalog))[i]? = some c →
          (flags[i]? = some true ↔
            (∀ j < i,
              (planAfter (shuffle (candidatePool rs parsedAudit courseCatalog)) flags
                (j + 1)).length < 5 ∧
              JSNum.gt (mathMax cl)
                (sumCredits (planAfter (shuffle (candidatePool rs parsedAudit courseCatalog))
                  flags (j + 1))) = true) ∧
            JSNum.le
              (JSNum.add
                (sumCredits (planAfter (shuffle (candidatePool rs parsedAudit courseCatalog))
                  flags i))
                (toNumber c.credits))
              (mathMax cl) = true) := by
  refine ⟨_, generatePlan_pool shuffle rs cl d parsedAudit courseCatalog, ?_⟩
  have hm : mathMax cl ≠ JSNum.nan := by
    rcases mathMax_cases cl with ⟨_, h⟩ | ⟨m, _, _, h⟩ <;> rw [h] <;> intro hn <;> cases hn
  obtain ⟨flags, hlen, hplan, hidx⟩ := buildPlan_flags (mathMax cl) hm
    (shuffle (candidatePool rs parsedAudit courseCatalog)) ⟨[], JSNum.num 0⟩ rfl ⟨0, rfl⟩
  refine ⟨flags, hlen, ?_, ?_⟩
  · rw [hplan]; rfl
  · intro i c hi
    have := hidx i c hi
    simpa only [List.nil_append] using this

/-- C16: when every catalog credit is a non-negative number and `m` is the
greatest credit-load value, a returned plan with fewer than five courses and a
total strictly below `m` is maximal for the pool: each candidate that is not in
the plan has credits greater than `m` minus the total. -/
theorem plan_maximal_below_ceiling (shuffle : List CourseRecord → List CourseRecord)
    (hperm : ∀ l, List.Perm (shuffle l) l) (rs : List String) (cl : List Int) (d : String)
    (parsedAudit : Option AuditRecord) (courseCatalog : Option (List CourseRecord))
    (m : Int) (hm : m ∈ cl) (hmax : ∀ x ∈ cl, x ≤ m)
    (hnn : ∀ c ∈ courseCatalog.getD [], ∃ k : Int, c.credits = Credits.num k ∧ 0 ≤ k) :
    ∃ r, generatePlan shuffle ⟨some rs, some cl, d⟩ parsedAudit courseCatalog = Except.ok r ∧
      ∀ t : Int, r.totalCredits = JSNum.num t → r.plan.length < 5 → t < m →
        ∀ c ∈ candidatePool rs parsedAudit courseCatalog, c ∉ r.plan →
          ∃ k : Int, c.credits = Credits.num k ∧ m - t < k := by
  refine ⟨_, generatePlan_pool shuffle rs cl d parsedAudit courseCatalog, ?_⟩
  rw [mathMax_eq cl m hm hmax]
  intro t ht hlen htm c hc hnot
  have hp := hperm (candidatePool rs parsedAudit courseCatalog)
  have hnn2 : ∀ x ∈ shuffle (candidatePool rs parsedAudit courseCatalog),
      ∃ k : Int, x.credits = Credits.num k ∧ 0 ≤ k := by
    intro x hx
    have hx2 : x ∈ candidatePool rs parsedAudit courseCatalog := hp.mem_iff.1 hx
    exact hnn x (List.mem_filter.1 hx2).1
  exact buildPlan_maximal m (shuffle (candidatePool rs parsedAudit courseCatalog))
    ⟨[], JSNum.num 0⟩ 0 rfl hnn2 t ht hlen htm c (hp.mem_iff.2 hc) hnot

/-- Instance of C16: with ceiling 6 the plan is CS301 alone (total 4), and the
candidates CS310 and CS320 left out have 3 credits each, more than 6 - 4. -/
theorem plan_maximal_below_ceiling_witness :
    (∀ l : List CourseRecord, List.Perm (id l) l) ∧
    (6 : Int) ∈ [6] ∧ (∀ x ∈ ([6] : List Int), x ≤ 6) ∧
    (∀ c ∈ (some electiveCatalog).getD [], ∃ k : Int, c.credits = Credits.num k ∧ 0 ≤ k) ∧
    (∃ r, generatePlan id ⟨some ["Major Core"], some [6], "Moderate"⟩ (some electiveAudit)
        (some electiveCatalog) = Except.ok r ∧
      ∀ t : Int, r.totalCredits = JSNum.num t → r.plan.length < 5 → t < 6 →
        ∀ c ∈ candidatePool ["Major Core"] (some electiveAudit) (some electiveCatalog),
          c ∉ r.plan → ∃ k : Int, c.credits = Credits.num k ∧ 6 - t < k) ∧
    generatePlan id ⟨some ["Major Core"], some [6], "Moderate"⟩ (some electiveAudit)
        (some electiveCatalog) =
      Except.ok ⟨[cs301], JSNum.num 4,
        ⟨some ["Major Core"], JSNum.num 6, [some "CS101", some "CS201"]⟩⟩ := by
  have hnn : ∀ c ∈ (some electiveCatalog).getD [], ∃ k : Int, c.credits = Credits.num k ∧ 0 ≤ k := by
    intro c hc
    simp only [Option.getD_some, electiveCatalog, List.mem_cons, List.mem_singleton,
      List.not_mem_nil, or_false] at hc
    rcases hc with rfl | rfl | rfl
    · exact ⟨4, rfl, by decide⟩
    · exact ⟨3, rfl, by decide⟩
    · exact ⟨3, rfl, by decide⟩
  exact ⟨fun l => List.Perm.refl l, by decide, by decide, hnn,
    plan_maximal_below_ceiling id (fun l => List.Perm.refl l) ["Major Core"] [6] "Moderate"
      (some electiveAudit) (some electiveCatalog) 6 (by decide) (by decide) hnn,
    rfl⟩

/-- C17: the greedy selection can under-fill the capacity. With ceiling 6 and
the pool ordered CS301 (4), CS310 (3), CS320 (3), the function returns CS301
alone with `totalCredits` 4, while the two distinct candidates CS310 and CS320
sum to 6, which is within the ceiling and more than 4. -/
theorem greedy_can_underfill :
    (∀ l : List CourseRecord, List.Perm (id l) l) ∧
    mathMax [6] = JSNum.num 6 ∧
    ∃ r, generatePlan id ⟨some ["Major Core"], some [6], "Moderate"⟩ (some electiveAudit)
        (some electiveCatalog) = Except.ok r ∧
      r.totalCredits = JSNum.num 4 ∧
      ∃ better : List CourseRecord,
        (better.map (fun c => c.code)).Nodup ∧ better.length ≤ 5 ∧
        (∀ c ∈ better,
          c ∈ candidatePool ["Major Core"] (some electiveAudit) (some electiveCatalog)) ∧
        sumCredits better = JSNum.num 6 ∧ (6 : Int) ≤ 6 ∧ (4 : Int) < 6 :=
  ⟨fun l => List.Perm.refl l, rfl,
    ⟨[cs301], JSNum.num 4, ⟨some ["Major Core"], JSNum.num 6, [some "CS101", some "CS201"]⟩⟩,
    rfl, rfl, [cs310, cs320], by decide, by decide, by decide, rfl, by decide, by decide⟩

end PlanSolver
